import Mathlib

/-!
# parallel-drain: discovery loop, claim set and worker pool

A shallow embedding of `src/main.go` (`run`, its worker closure and `main`)
and the proofs of the properties stated for it.

* The claim set is the `sync.Map` `processingNodes`; only its keys matter
  (every stored value is `true`), so it is a list of node names with the two
  operations the program uses, `LoadOrStore` and `Delete`.
* The work queue is the unbuffered channel `nodeChan`. A send completes when a
  worker receives the name; that rendezvous is a step of the interleaved model
  (`step`), in which a cycle blocks while no worker is waiting.
* `pollCycle`, `discoveryLoop` and `run` describe the dispatcher when every
  send is received: a cycle records the names sent, oldest first.
  `cycle_refines_pollCycle` and `cycle_run_facts` relate the two views.
* The counter `oldNode` is a Go `int`: increments wrap at 64 bits.
* The collaborators (`Nodes().List`, `Nodes().Get`, `RunCordonOrUncordon`,
  `RunNodeDrain`, the client constructors) are external: their results are
  inputs of the model, one result per call.
-/

namespace ParallelDrain

/-! ## Data model -/

/-- The two fields of a `v1.Node` the program reads: `node.Name` and
`node.Status.NodeInfo.KubeletVersion`. -/
structure Node where
  name : String
  kubeletVersion : String
deriving DecidableEq, Repr

/-- `processingNodes.LoadOrStore(k, true)`: when the key is present the map is
unchanged and `loaded` is `true`; otherwise the key is stored and `loaded` is
`false`. -/
def loadOrStore (m : List String) (k : String) : List String × Bool :=
  if k ∈ m then (m, true) else (m ++ [k], false)

/-- `processingNodes.Delete(k)`: the key is gone afterwards, every other key
stays. -/
def delete (m : List String) (k : String) : List String :=
  m.filter (fun x => x != k)

/-- Go `int` arithmetic (64 bit, two's complement): the value of an exact
result after wrapping. -/
def wrapInt64 (x : Int) : Int :=
  (x + 2 ^ 63) % 2 ^ 64 - 2 ^ 63

/-- How an iteration of the discovery loop `for ; true; <-ticker.C` ends:
`continue` and the normal end of the body both go on to wait for the next
tick, `break` leaves the loop. -/
inductive Ctl where
  | nextTick
  | leave
deriving DecidableEq, Repr

/-! ## One poll cycle (main.go lines 109-132) -/

/-- The variables a cycle's `for _, node := range nodes.Items` loop works on:
the claim set, the names sent on `nodeChan` so far in this cycle, and the
counter `oldNode`. -/
structure CycleState where
  processingNodes : List String
  nodeChan : List String
  oldNode : Int
deriving DecidableEq, Repr

/-- The body of `for _, node := range nodes.Items` (lines 119-127). -/
def visitNode (oldVersion : String) (s : CycleState) (node : Node) : CycleState :=
  if node.kubeletVersion != oldVersion then s
  else
    let oldNode := wrapInt64 (s.oldNode + 1)
    match loadOrStore s.processingNodes node.name with
    | (m, true) => { processingNodes := m, nodeChan := s.nodeChan, oldNode := oldNode }
    | (m, false) =>
        { processingNodes := m, nodeChan := s.nodeChan ++ [node.name], oldNode := oldNode }

/-- What one iteration of the discovery loop leaves behind. -/
structure CycleResult where
  processingNodes : List String
  sent : List String
  oldNode : Int
  listFailed : Bool
  ctl : Ctl
deriving DecidableEq, Repr

/-- One iteration of the discovery loop (lines 109-132), as it runs when every
send on `nodeChan` is received and no claim is released meanwhile.
`listResult` is what `Nodes().List` returned: an error, or `nodes.Items`.
The send of line 127 waits for a worker; that wait is not part of this
function but of the running system (`step`), where a cycle can stay blocked
in a send (`cycle_run_facts`, `cycleSchedule_complete`). -/
def pollCycle (oldVersion : String) (listResult : Except String (List Node))
    (m : List String) : CycleResult :=
  match listResult with
  | .error _ =>
      { processingNodes := m, sent := [], oldNode := 0, listFailed := true, ctl := .nextTick }
  | .ok items =>
      let s := items.foldl (visitNode oldVersion) { processingNodes := m, nodeChan := [], oldNode := 0 }
      { processingNodes := s.processingNodes, sent := s.nodeChan, oldNode := s.oldNode,
        listFailed := false, ctl := if s.oldNode == 0 then .leave else .nextTick }

/-! ## The discovery loop (main.go lines 108-135) -/

/-- What the main goroutine does that can be observed from outside, in
order. -/
inductive RunEvent where
  | printStart
  | clientConfig
  | newForConfig
  | startWorker (i : Nat)
  | newTicker
  | list
  | errList
  | send (name : String)
  | closeChan
  | wgWait
  | printDone
deriving DecidableEq, Repr

/-- What the environment supplies for one iteration of the discovery loop:
the names the workers released (`Delete`) since the previous iteration, and
the result of this iteration's `Nodes().List`. -/
structure Tick where
  released : List String
  listResult : Except String (List Node)

/-- The effects of one iteration, in order: the `List` call, then either the
error line or the sends. -/
def cycleTrace (r : CycleResult) : List RunEvent :=
  RunEvent.list :: (if r.listFailed then [RunEvent.errList] else r.sent.map RunEvent.send)

/-- The state the discovery loop is left in after the ticks it was given:
`closed` says that the loop was left through `break`, after which line 135
closes `nodeChan`; otherwise the loop is waiting for a further tick. -/
structure LoopResult where
  processingNodes : List String
  trace : List RunEvent
  closed : Bool
deriving DecidableEq, Repr

/-- The loop `for ; true; <-ticker.C` over the ticks the environment
supplies. The first iteration runs at once, each later one after a tick.
Each iteration is `pollCycle`: every send is taken as received. -/
def discoveryLoop (oldVersion : String) (m : List String) : List Tick → LoopResult
  | [] => { processingNodes := m, trace := [], closed := false }
  | t :: rest =>
      let r := pollCycle oldVersion t.listResult (t.released.foldl delete m)
      match r.ctl with
      | .leave => { processingNodes := r.processingNodes, trace := cycleTrace r, closed := true }
      | .nextTick =>
          let r' := discoveryLoop oldVersion r.processingNodes rest
          { processingNodes := r'.processingNodes, trace := cycleTrace r ++ r'.trace,
            closed := r'.closed }

/-! ## The worker closure (main.go lines 79-101) -/

/-- The results of the collaborator calls made for one item: `Nodes().Get`
(the node, or `none` for an error), `RunCordonOrUncordon` and `RunNodeDrain`
(`true` for a nil error). A result is only looked at when its call is made. -/
structure Outcome where
  get : Option Node
  cordon : Bool
  drain : Bool
deriving DecidableEq, Repr

/-- What a worker does that can be observed from outside. -/
inductive WorkerEvent where
  | printProcessing (name : String)
  | get (name : String)
  | errGet (name : String)
  | cordon (node : Node)
  | errCordon (name : String)
  | drain (name : String)
  | errDrain (name : String)
  | printDrained (name : String)
  | delete (name : String)
deriving DecidableEq, Repr

/-- The claim set and the effects, in order, of a stretch of a worker's
execution. -/
structure WorkerResult where
  processingNodes : List String
  trace : List WorkerEvent
deriving DecidableEq, Repr

/-- The body of `for nodeName := range nodeChan` (lines 80-100) for one
received name. -/
def workerItem (m : List String) (nodeName : String) (o : Outcome) : WorkerResult :=
  let t0 := [WorkerEvent.printProcessing nodeName, WorkerEvent.get nodeName]
  match o.get with
  | none =>
      { processingNodes := delete m nodeName,
        trace := t0 ++ [WorkerEvent.errGet nodeName, WorkerEvent.delete nodeName] }
  | some node =>
      let t1 := t0 ++ [WorkerEvent.cordon node]
      if o.cordon = false then
        { processingNodes := delete m nodeName,
          trace := t1 ++ [WorkerEvent.errCordon nodeName, WorkerEvent.delete nodeName] }
      else
        let t2 := t1 ++ [WorkerEvent.drain nodeName]
        let t3 :=
          if o.drain = false then t2 ++ [WorkerEvent.errDrain nodeName]
          else t2 ++ [WorkerEvent.printDrained nodeName]
        { processingNodes := delete m nodeName, trace := t3 ++ [WorkerEvent.delete nodeName] }

/-- The loop `for nodeName := range nodeChan` of one worker over the names it
receives before the channel is closed, each with the results of its calls. -/
def workerLoop (m : List String) : List (String × Outcome) → WorkerResult
  | [] => { processingNodes := m, trace := [] }
  | (nodeName, o) :: rest =>
      let r := workerItem m nodeName o
      let r' := workerLoop r.processingNodes rest
      { processingNodes := r'.processingNodes, trace := r.trace ++ r'.trace }

/-! ## `run` and `main` (main.go lines 37-140) -/

/-- What the environment supplies to `run`: the results of building the
client configuration and the clientset, the ticks of the discovery loop, and
whether every worker leaves its loop once the channel is closed. -/
structure Env where
  clientConfig : Except String Unit
  newForConfig : Except String Unit
  ticks : List Tick
  workersExit : Bool

/-- How an execution of `run` stands: it returned (an error or nil), it
panicked, or it has not returned. -/
inductive RunStatus where
  | returned (err : Option String)
  | panicked
  | running
deriving DecidableEq, Repr

/-- The effects of the main goroutine and how `run` stands after them. -/
structure RunResult where
  trace : List RunEvent
  status : RunStatus
deriving DecidableEq, Repr

/-- The function `run` (lines 44-140), as seen from the main goroutine. The
workers it starts run the worker closure concurrently. The loop is
`discoveryLoop`, so every send is taken as received; a send that no worker
ever receives (no worker at all, or none that becomes free) blocks the real
`run` at line 127. -/
def run (oldVersion : String) (concurrency : Int) (checkInterval : Int) (env : Env) :
    RunResult :=
  if oldVersion == "" then
    { trace := [], status := .returned (some "--old-k8s-version is required") }
  else
    let t0 := [RunEvent.printStart, RunEvent.clientConfig]
    match env.clientConfig with
    | .error e => { trace := t0, status := .returned (some e) }
    | .ok _ =>
        let t1 := t0 ++ [RunEvent.newForConfig]
        match env.newForConfig with
        | .error e => { trace := t1, status := .returned (some e) }
        | .ok _ =>
            let t2 := t1 ++ (List.range concurrency.toNat).map RunEvent.startWorker
              ++ [RunEvent.newTicker]
            if checkInterval ≤ 0 then { trace := t2, status := .panicked }
            else
              let r := discoveryLoop oldVersion [] env.ticks
              if r.closed = false then { trace := t2 ++ r.trace, status := .running }
              else
                let t3 := t2 ++ r.trace ++ [RunEvent.closeChan, RunEvent.wgWait]
                if env.workersExit = false then { trace := t3, status := .running }
                else { trace := t3 ++ [RunEvent.printDone], status := .returned none }

/-- The exit status `main` (lines 37-42) ends the process with:
`rootCmd.Execute()` hands back what `run` returned, an error leads to
`os.Exit(1)`, nil to the normal end of `main`; a panic ends a Go program with
status 2. `none` when `run` has not returned. -/
def exitStatus : RunStatus → Option Nat
  | .returned (some _) => some 1
  | .returned none => some 0
  | .panicked => some 2
  | .running => none

/-- The function `main`: the exit status of the process. -/
def main (oldVersion : String) (concurrency : Int) (checkInterval : Int) (env : Env) :
    Option Nat :=
  exitStatus (run oldVersion concurrency checkInterval env).status

/-! ## The running system: one dispatcher and the workers, interleaved -/

/-- Where a worker stands in its closure. -/
inductive WorkerPc where
  | idle
  | fetching (name : String)
  | cordoning (name : String) (node : Node)
  | draining (name : String)
  | releasing (name : String)
  | exited
deriving DecidableEq, Repr

/-- The node name a worker is processing: the name it received and has not
yet deleted from the claim set. -/
def WorkerPc.holds : WorkerPc → Option String
  | .idle => none
  | .fetching n => some n
  | .cordoning n _ => some n
  | .draining n => some n
  | .releasing n => some n
  | .exited => none

/-- Where the main goroutine stands in the discovery loop. -/
inductive DispPc where
  | listing
  | ranging (rest : List Node) (oldNode : Int)
  | sending (name : String) (rest : List Node) (oldNode : Int)
  | waiting
  | closed
  | done
deriving DecidableEq, Repr

/-- The shared state and every goroutine's position. -/
structure Sys where
  processingNodes : List String
  disp : DispPc
  workers : List WorkerPc
deriving DecidableEq, Repr

/-- The atomic steps of the system. Map operations are atomic (`sync.Map`),
and a send on the unbuffered `nodeChan` completes together with the receive
of one worker. -/
inductive Action where
  | list (result : Except String (List Node))
  | visit
  | endCycle
  | tick
  | handOff (w : Nat)
  | get (w : Nat) (result : Option Node)
  | cordon (w : Nat) (ok : Bool)
  | drain (w : Nat) (ok : Bool)
  | release (w : Nat)
  | workerExit (w : Nat)
  | finish

/-- One atomic step; `none` when the action is not enabled in the state. -/
def step (oldVersion : String) (s : Sys) : Action → Option Sys
  | .list result =>
      match s.disp with
      | .listing =>
          match result with
          | .error _ => some { s with disp := .waiting }
          | .ok items => some { s with disp := .ranging items 0 }
      | _ => none
  | .visit =>
      match s.disp with
      | .ranging (node :: rest) oldNode =>
          let c := visitNode oldVersion
            { processingNodes := s.processingNodes, nodeChan := [], oldNode := oldNode } node
          match c.nodeChan with
          | [] => some { s with processingNodes := c.processingNodes,
                                disp := .ranging rest c.oldNode }
          | name :: _ => some { s with processingNodes := c.processingNodes,
                                       disp := .sending name rest c.oldNode }
      | _ => none
  | .endCycle =>
      match s.disp with
      | .ranging [] oldNode =>
          if oldNode == 0 then some { s with disp := .closed }
          else some { s with disp := .waiting }
      | _ => none
  | .tick =>
      match s.disp with
      | .waiting => some { s with disp := .listing }
      | _ => none
  | .handOff w =>
      match s.disp, s.workers[w]? with
      | .sending name rest oldNode, some .idle =>
          some { s with disp := .ranging rest oldNode, workers := s.workers.set w (.fetching name) }
      | _, _ => none
  | .get w result =>
      match s.workers[w]? with
      | some (.fetching name) =>
          match result with
          | none => some { s with workers := s.workers.set w (.releasing name) }
          | some node => some { s with workers := s.workers.set w (.cordoning name node) }
      | _ => none
  | .cordon w ok =>
      match s.workers[w]? with
      | some (.cordoning name _) =>
          if ok = false then some { s with workers := s.workers.set w (.releasing name) }
          else some { s with workers := s.workers.set w (.draining name) }
      | _ => none
  | .drain w _ =>
      match s.workers[w]? with
      | some (.draining name) => some { s with workers := s.workers.set w (.releasing name) }
      | _ => none
  | .release w =>
      match s.workers[w]? with
      | some (.releasing name) =>
          some { s with processingNodes := delete s.processingNodes name,
                        workers := s.workers.set w .idle }
      | _ => none
  | .workerExit w =>
      match s.disp, s.workers[w]? with
      | .closed, some .idle => some { s with workers := s.workers.set w .exited }
      | _, _ => none
  | .finish =>
      match s.disp with
      | .closed => if s.workers.all (fun pc => pc == .exited) then some { s with disp := .done }
                   else none
      | _ => none

/-- A sequence of atomic steps. -/
def exec (oldVersion : String) (s : Sys) : List Action → Option Sys
  | [] => some s
  | a :: rest =>
      match step oldVersion s a with
      | none => none
      | some s' => exec oldVersion s' rest

/-- The state in which the discovery loop starts: an empty claim set, the
workers started by lines 77-103 all waiting on `nodeChan`. -/
def start (concurrency : Int) : Sys :=
  { processingNodes := [], disp := .listing, workers := List.replicate concurrency.toNat .idle }

/-- The names being processed, one entry per worker that holds one. -/
def holders (s : Sys) : List String :=
  s.workers.filterMap WorkerPc.holds

/-- The names in flight: the one the dispatcher has claimed and is handing
over, and the ones the workers hold. -/
def inFlight (s : Sys) : List String :=
  (match s.disp with
    | .sending name _ _ => [name]
    | _ => []) ++ holders s

/-! ## Specification-side functions -/

/-- A list with every later repeat of an element dropped. -/
def firstOccurrences : List String → List String
  | [] => []
  | x :: xs => x :: (firstOccurrences xs).filter (fun y => y != x)

/-- The names a cycle is expected to dispatch: nodes of the listing whose
version is exactly the target and whose name is not claimed, in listing order,
later repeats dropped. -/
def expectedDispatch (oldVersion : String) (claims : List String) (items : List Node) :
    List String :=
  firstOccurrences
    ((items.filter (fun nd => nd.kubeletVersion == oldVersion && !(claims.contains nd.name))).map
      Node.name)

/-- The number of nodes of a listing whose version is exactly the target. -/
def matchCount (oldVersion : String) (items : List Node) : Nat :=
  (items.filter (fun nd => nd.kubeletVersion == oldVersion)).length

/-- The name a step hands from the dispatcher to a worker, when the step is
an enabled hand-over. -/
def handedOver (s : Sys) : Action → List String
  | .handOff w =>
      match s.disp, s.workers[w]? with
      | .sending name _ _, some .idle => [name]
      | _, _ => []
  | _ => []

/-- The names the workers receive in a sequence of steps, in order. -/
def received (oldVersion : String) (s : Sys) : List Action → List String
  | [] => []
  | a :: rest =>
      match step oldVersion s a with
      | none => []
      | some s' => handedOver s a ++ received oldVersion s' rest

/-- The steps that can occur inside one cycle in which no claim is released:
the dispatcher's visits and hand-overs, and the workers' collaborator
calls. -/
def Action.withinCycle : Action → Bool
  | .visit => true
  | .handOff _ => true
  | .get _ _ => true
  | .cordon _ _ => true
  | .drain _ _ => true
  | _ => false

/-- What the range loop of a cycle still has to do, seen from a position of
the dispatcher inside the cycle: `q` are the names received so far. -/
def cycleRest (oldVersion : String) (m : List String) (q : List String) : DispPc → Option CycleState
  | .ranging rest c =>
      some (rest.foldl (visitNode oldVersion) { processingNodes := m, nodeChan := q, oldNode := c })
  | .sending name rest c =>
      some (rest.foldl (visitNode oldVersion)
        { processingNodes := m, nodeChan := q ++ [name], oldNode := c })
  | _ => none

/-- The steps worker `w` takes for one received name when its collaborator
calls have the results `o`: the calls it makes, then the delete. -/
def workerActions (w : Nat) (o : Outcome) : List Action :=
  match o.get with
  | none => [.get w none, .release w]
  | some node =>
      if o.cordon = false then [.get w (some node), .cordon w false, .release w]
      else [.get w (some node), .cordon w true, .drain w o.drain, .release w]

/-- The number of workers waiting to receive on `nodeChan`. -/
def idleCount (ws : List WorkerPc) : Nat :=
  ws.countP (fun pc => pc == .idle)

/-- The name the dispatcher has stored and is blocked sending (line 127), if
it stands there. -/
def pendingName : DispPc → List String
  | .sending name _ _ => [name]
  | _ => []

/-- The first worker waiting to receive, if there is one. -/
def firstIdle : List WorkerPc → Option Nat
  | [] => none
  | pc :: rest => if pc = .idle then some 0 else (firstIdle rest).map (fun i => i + 1)

/-- A schedule of the range loop over a listing in which every send is
received at once by the first waiting worker; it stops at a send that finds no
worker waiting. -/
def cycleSchedule (oldVersion : String) : List String → List WorkerPc → List Node → List Action
  | _, _, [] => []
  | m, ws, node :: rest =>
      if node.kubeletVersion != oldVersion then .visit :: cycleSchedule oldVersion m ws rest
      else if node.name ∈ m then .visit :: cycleSchedule oldVersion m ws rest
      else
        match firstIdle ws with
        | none => [.visit]
        | some w =>
            .visit :: .handOff w ::
              cycleSchedule oldVersion (m ++ [node.name]) (ws.set w (.fetching node.name)) rest

/-- The invariant of the running system: the names in flight are pairwise
distinct and all in the claim set. -/
def Inv (s : Sys) : Prop :=
  (inFlight s).Nodup ∧ ∀ x ∈ inFlight s, x ∈ s.processingNodes

/-- The event is a `processingNodes.Delete`. -/
def WorkerEvent.isDelete : WorkerEvent → Bool
  | .delete _ => true
  | _ => false

/-- The event is a `Nodes().Get` call. -/
def WorkerEvent.isGet : WorkerEvent → Bool
  | .get _ => true
  | _ => false

/-- The event is a `RunCordonOrUncordon` call. -/
def WorkerEvent.isCordon : WorkerEvent → Bool
  | .cordon _ => true
  | _ => false

/-- The event is a `RunNodeDrain` call. -/
def WorkerEvent.isDrain : WorkerEvent → Bool
  | .drain _ => true
  | _ => false

/-! ## Lemmas: claim set operations -/

theorem mem_delete_iff (m : List String) (k x : String) : x ∈ delete m k ↔ x ∈ m ∧ x ≠ k := by
  simp [delete]

theorem not_mem_delete_self (m : List String) (k : String) : k ∉ delete m k := by
  simp [delete]

/-! ## Lemmas: one poll cycle -/

theorem visitNode_skip {v : String} {s : CycleState} {nd : Node} (h : nd.kubeletVersion ≠ v) :
    visitNode v s nd = s := by
  simp [visitNode, h]

theorem visitNode_claimed {v : String} {s : CycleState} {nd : Node} (h : nd.kubeletVersion = v)
    (hc : nd.name ∈ s.processingNodes) :
    visitNode v s nd = { processingNodes := s.processingNodes, nodeChan := s.nodeChan,
                         oldNode := wrapInt64 (s.oldNode + 1) } := by
  simp [visitNode, h, loadOrStore, hc]

theorem visitNode_fresh {v : String} {s : CycleState} {nd : Node} (h : nd.kubeletVersion = v)
    (hc : nd.name ∉ s.processingNodes) :
    visitNode v s nd = { processingNodes := s.processingNodes ++ [nd.name],
                         nodeChan := s.nodeChan ++ [nd.name],
                         oldNode := wrapInt64 (s.oldNode + 1) } := by
  simp [visitNode, h, loadOrStore, hc]

theorem firstOccurrences_filter (a : String) (xs : List String) :
    firstOccurrences (xs.filter (fun y => y != a)) =
      (firstOccurrences xs).filter (fun y => y != a) := by
  induction xs with
  | nil => simp [firstOccurrences]
  | cons x xs ih =>
      by_cases hx : x = a
      · subst hx
        simp [firstOccurrences, ih, List.filter_filter]
      · simp only [List.filter_cons, bne_iff_ne, ne_eq, hx, not_false_eq_true, if_true,
          firstOccurrences, ih, List.filter_filter]
        congr 1
        apply List.filter_congr
        intro y _
        simp [Bool.and_comm]

theorem mem_firstOccurrences (xs : List String) (x : String) :
    x ∈ firstOccurrences xs ↔ x ∈ xs := by
  induction xs with
  | nil => simp [firstOccurrences]
  | cons y ys ih =>
      by_cases hxy : x = y
      · simp [firstOccurrences, hxy]
      · simp [firstOccurrences, hxy, ih]

theorem nodup_firstOccurrences (xs : List String) : (firstOccurrences xs).Nodup := by
  induction xs with
  | nil => simp [firstOccurrences]
  | cons y ys ih =>
      simp only [firstOccurrences, List.nodup_cons]
      exact ⟨by simp, ih.filter _⟩

theorem expectedDispatch_skip {v : String} {C : List String} {nd : Node} {rest : List Node}
    (h : nd.kubeletVersion ≠ v) :
    expectedDispatch v C (nd :: rest) = expectedDispatch v C rest := by
  simp [expectedDispatch, List.filter_cons, h]

theorem expectedDispatch_claimed {v : String} {C : List String} {nd : Node} {rest : List Node}
    (hc : nd.name ∈ C) :
    expectedDispatch v C (nd :: rest) = expectedDispatch v C rest := by
  simp [expectedDispatch, List.filter_cons, hc]

theorem expectedDispatch_fresh {v : String} {C : List String} {nd : Node} {rest : List Node}
    (h : nd.kubeletVersion = v) (hc : nd.name ∉ C) :
    expectedDispatch v C (nd :: rest) = nd.name :: expectedDispatch v (C ++ [nd.name]) rest := by
  have hcond : (nd.kubeletVersion == v && !(C.contains nd.name)) = true := by simp [h, hc]
  unfold expectedDispatch
  rw [List.filter_cons, if_pos hcond, List.map_cons, firstOccurrences, ← firstOccurrences_filter,
    List.filter_map, List.filter_filter]
  congr 3
  apply List.filter_congr
  intro x _
  by_cases hx : x.name = nd.name <;> by_cases hv : x.kubeletVersion = v <;>
    by_cases hC : x.name ∈ C <;> simp [hx, hv, hC, hc]

/-- The range loop of a cycle, from any state: the sends and the new claims
are exactly the expected dispatch for the claim set it starts from. -/
theorem foldl_visitNode (v : String) (items : List Node) (s : CycleState) :
    (items.foldl (visitNode v) s).nodeChan
        = s.nodeChan ++ expectedDispatch v s.processingNodes items ∧
    (items.foldl (visitNode v) s).processingNodes
        = s.processingNodes ++ expectedDispatch v s.processingNodes items := by
  induction items generalizing s with
  | nil => simp [expectedDispatch, firstOccurrences]
  | cons nd rest ih =>
      simp only [List.foldl_cons]
      by_cases h : nd.kubeletVersion = v
      · by_cases hc : nd.name ∈ s.processingNodes
        · rw [visitNode_claimed h hc, expectedDispatch_claimed hc]
          exact ih _
        · rw [visitNode_fresh h hc, expectedDispatch_fresh h hc]
          have := ih { processingNodes := s.processingNodes ++ [nd.name],
                       nodeChan := s.nodeChan ++ [nd.name],
                       oldNode := wrapInt64 (s.oldNode + 1) }
          simpa using this
      · rw [visitNode_skip h, expectedDispatch_skip h]
        exact ih s

theorem wrapInt64_of_lt {x : Int} (h0 : 0 ≤ x) (h1 : x < 2 ^ 63) : wrapInt64 x = x := by
  unfold wrapInt64
  omega

/-- The counter of a cycle: while it stays below `2 ^ 63` it is the number of
matching nodes visited. -/
theorem foldl_visitNode_oldNode (v : String) (items : List Node) (s : CycleState)
    (h0 : 0 ≤ s.oldNode) (h1 : s.oldNode + matchCount v items < 2 ^ 63) :
    (items.foldl (visitNode v) s).oldNode = s.oldNode + matchCount v items := by
  induction items generalizing s with
  | nil => simp [matchCount]
  | cons nd rest ih =>
      simp only [List.foldl_cons]
      by_cases h : nd.kubeletVersion = v
      · have hm : matchCount v (nd :: rest) = matchCount v rest + 1 := by
          simp [matchCount, List.filter_cons, h]
        rw [hm] at h1 ⊢
        have hw : wrapInt64 (s.oldNode + 1) = s.oldNode + 1 :=
          wrapInt64_of_lt (by omega) (by push_cast at h1; omega)
        have hstep : (visitNode v s nd).oldNode = s.oldNode + 1 := by
          by_cases hc : nd.name ∈ s.processingNodes
          · rw [visitNode_claimed h hc]; exact hw
          · rw [visitNode_fresh h hc]; exact hw
        rw [ih _ (by rw [hstep]; omega) (by rw [hstep]; push_cast at h1 ⊢; omega), hstep]
        push_cast
        ring
      · have hm : matchCount v (nd :: rest) = matchCount v rest := by
          simp [matchCount, List.filter_cons, h]
        rw [hm] at h1 ⊢
        rw [visitNode_skip h]
        exact ih s h0 h1

theorem matchCount_le_length (v : String) (items : List Node) :
    matchCount v items ≤ items.length := by
  unfold matchCount
  exact List.length_filter_le _ _

theorem foldl_visitNode_no_match (v : String) (items : List Node) (s : CycleState)
    (h : ∀ nd ∈ items, nd.kubeletVersion ≠ v) : items.foldl (visitNode v) s = s := by
  induction items generalizing s with
  | nil => rfl
  | cons nd rest ih =>
      simp only [List.foldl_cons]
      rw [visitNode_skip (h nd (by simp))]
      exact ih s (fun x hx => h x (by simp [hx]))

theorem pollCycle_ok_sent (v : String) (C : List String) (L : List Node) :
    (pollCycle v (.ok L) C).sent = expectedDispatch v C L := by
  simpa [pollCycle] using (foldl_visitNode v L ⟨C, [], 0⟩).1

theorem pollCycle_ok_claims (v : String) (C : List String) (L : List Node) :
    (pollCycle v (.ok L) C).processingNodes = C ++ expectedDispatch v C L := by
  simpa [pollCycle] using (foldl_visitNode v L ⟨C, [], 0⟩).2

theorem pollCycle_ok_oldNode (v : String) (C : List String) (L : List Node)
    (hlen : L.length < 2 ^ 63) : (pollCycle v (.ok L) C).oldNode = matchCount v L := by
  have hle := matchCount_le_length v L
  have := foldl_visitNode_oldNode v L ⟨C, [], 0⟩ (by simp) (by
    simp only [zero_add]
    have h2 : ((matchCount v L : Nat) : Int) ≤ (L.length : Int) := by exact_mod_cast hle
    have h3 : ((L.length : Nat) : Int) < 2 ^ 63 := by exact_mod_cast hlen
    omega)
  simpa [pollCycle] using this

theorem mem_expectedDispatch (v : String) (C : List String) (L : List Node) (x : String) :
    x ∈ expectedDispatch v C L ↔ (∃ nd ∈ L, nd.kubeletVersion = v ∧ nd.name = x) ∧ x ∉ C := by
  unfold expectedDispatch
  rw [mem_firstOccurrences]
  simp only [List.mem_map, List.mem_filter, Bool.and_eq_true, beq_iff_eq, Bool.not_eq_true',
    List.contains_eq_any_beq, List.any_eq_false, not_exists]
  constructor
  · rintro ⟨nd, ⟨hnd, hv, hC⟩, rfl⟩
    refine ⟨⟨nd, hnd, hv, rfl⟩, ?_⟩
    intro hmem
    exact hC _ hmem (by simp)
  · rintro ⟨⟨nd, hnd, hv, rfl⟩, hC⟩
    refine ⟨nd, ⟨hnd, hv, ?_⟩, rfl⟩
    intro y hy hbeq
    have : nd.name = y := by simpa using hbeq
    exact hC (this ▸ hy)

theorem matchCount_pos {v : String} {L : List Node} (h : ∃ nd ∈ L, nd.kubeletVersion = v) :
    0 < matchCount v L := by
  obtain ⟨nd, hnd, hv⟩ := h
  unfold matchCount
  apply List.length_pos_of_mem (a := nd)
  simp [List.mem_filter, hnd, hv]

/-! ## The dispatcher: poll cycles and the discovery loop -/

/-- C1 (no duplicate dispatch). In one poll cycle, whatever the claim set and
whatever `List` returned, no name that is in the claim set when the cycle
starts is sent on `nodeChan`, and no name is sent twice in the cycle, however
often the listing repeats it. -/
theorem no_duplicate_dispatch (v : String) (C : List String)
    (listResult : Except String (List Node)) :
    (∀ n ∈ C, n ∉ (pollCycle v listResult C).sent) ∧ (pollCycle v listResult C).sent.Nodup := by
  cases listResult with
  | error e => simp [pollCycle]
  | ok L =>
      rw [pollCycle_ok_sent]
      refine ⟨?_, nodup_firstOccurrences _⟩
      intro n hn hmem
      exact ((mem_expectedDispatch v C L n).1 hmem).2 hn

theorem pollCycle_no_match (v : String) (C : List String) (L : List Node)
    (h : ∀ nd ∈ L, nd.kubeletVersion ≠ v) :
    pollCycle v (.ok L) C =
      { processingNodes := C, sent := [], oldNode := 0, listFailed := false, ctl := .leave } := by
  simp [pollCycle, foldl_visitNode_no_match v L _ h]

/-- C3 (convergence). When a successful listing has no node whose version
equals the target (the empty listing included), the cycle sends nothing,
leaves the claim set as it was and leaves the discovery loop: whatever ticks
would follow, the loop makes this one `List` call and no other and ends with
the channel closed; `run` then closes `nodeChan`, waits for the workers and
returns nil. -/
theorem convergence_ends_loop (v : String) (C : List String) (L : List Node)
    (h : ∀ nd ∈ L, nd.kubeletVersion ≠ v) :
    (pollCycle v (.ok L) C).sent = [] ∧
    (pollCycle v (.ok L) C).processingNodes = C ∧
    (pollCycle v (.ok L) C).ctl = .leave ∧
    (∀ rest : List Tick, discoveryLoop v C (⟨[], .ok L⟩ :: rest) =
      { processingNodes := C, trace := [RunEvent.list], closed := true }) ∧
    (∀ (rest : List Tick) (concurrency checkInterval : Int), v ≠ "" → 0 < checkInterval →
      run v concurrency checkInterval ⟨.ok (), .ok (), ⟨[], .ok L⟩ :: rest, true⟩ =
        { trace := [RunEvent.printStart, RunEvent.clientConfig, RunEvent.newForConfig]
            ++ (List.range concurrency.toNat).map RunEvent.startWorker
            ++ [RunEvent.newTicker, RunEvent.list, RunEvent.closeChan, RunEvent.wgWait,
                RunEvent.printDone],
          status := .returned none }) := by
  have hc := pollCycle_no_match v C L h
  have hloop : ∀ (C : List String) (rest : List Tick),
      discoveryLoop v C (⟨[], .ok L⟩ :: rest) =
        { processingNodes := C, trace := [RunEvent.list], closed := true } := by
    intro C rest
    simp [discoveryLoop, pollCycle_no_match v C L h, cycleTrace]
  refine ⟨by rw [hc], by rw [hc], by rw [hc], hloop C, ?_⟩
  intro rest concurrency checkInterval hv hi
  simp [run, hv, hloop, not_le.mpr hi]

/-- Witness of C3: a listing of two nodes at another version than the
target. -/
theorem convergence_ends_loop_witness :
    (pollCycle "v1.32.0" (.ok [⟨"n1", "v1.31.0"⟩, ⟨"n2", "v1.31.0"⟩]) ["n9"]).sent = [] ∧
    (pollCycle "v1.32.0" (.ok [⟨"n1", "v1.31.0"⟩, ⟨"n2", "v1.31.0"⟩]) ["n9"]).processingNodes
      = ["n9"] ∧
    (pollCycle "v1.32.0" (.ok [⟨"n1", "v1.31.0"⟩, ⟨"n2", "v1.31.0"⟩]) ["n9"]).ctl = .leave :=
  have h := convergence_ends_loop "v1.32.0" ["n9"] [⟨"n1", "v1.31.0"⟩, ⟨"n2", "v1.31.0"⟩]
    (by decide)
  ⟨h.1, h.2.1, h.2.2.1⟩

/-- C4 (non-convergence persistence). When a successful listing has at least
one node whose version equals the target, the cycle does not leave the
discovery loop: the counter `oldNode` is the number of matching nodes, not
zero, and the loop goes on with the ticks that follow. This holds also when
every matching node is already claimed; then nothing is sent and the claim set
is unchanged. (`L.length < 2 ^ 63` holds of every Go slice.) -/
theorem non_convergence_persists (v : String) (C : List String) (L : List Node)
    (hlen : L.length < 2 ^ 63) (h : ∃ nd ∈ L, nd.kubeletVersion = v) :
    (pollCycle v (.ok L) C).ctl = .nextTick ∧
    (pollCycle v (.ok L) C).oldNode = matchCount v L ∧
    (pollCycle v (.ok L) C).oldNode ≠ 0 ∧
    (∀ rest : List Tick, discoveryLoop v C (⟨[], .ok L⟩ :: rest) =
      { processingNodes :=
          (discoveryLoop v (pollCycle v (.ok L) C).processingNodes rest).processingNodes,
        trace := RunEvent.list :: (pollCycle v (.ok L) C).sent.map RunEvent.send ++
          (discoveryLoop v (pollCycle v (.ok L) C).processingNodes rest).trace,
        closed := (discoveryLoop v (pollCycle v (.ok L) C).processingNodes rest).closed }) ∧
    ((∀ nd ∈ L, nd.kubeletVersion = v → nd.name ∈ C) →
      (pollCycle v (.ok L) C).sent = [] ∧ (pollCycle v (.ok L) C).processingNodes = C) := by
  have hcount := pollCycle_ok_oldNode v C L hlen
  have hpos := matchCount_pos h
  have hne : (pollCycle v (.ok L) C).oldNode ≠ 0 := by
    rw [hcount]
    exact_mod_cast hpos.ne'
  have hctl : (pollCycle v (.ok L) C).ctl = .nextTick := by
    have : (pollCycle v (.ok L) C).ctl =
        if (pollCycle v (.ok L) C).oldNode == 0 then .leave else .nextTick := rfl
    rw [this]
    simp [hne]
  have hfail : (pollCycle v (.ok L) C).listFailed = false := rfl
  refine ⟨hctl, hcount, hne, ?_, ?_⟩
  · intro rest
    simp [discoveryLoop, hctl, cycleTrace, hfail]
  · intro hall
    have hempty : expectedDispatch v C L = [] := by
      apply List.eq_nil_iff_forall_not_mem.2
      intro x hx
      obtain ⟨⟨nd, hnd, hv, rfl⟩, hC⟩ := (mem_expectedDispatch v C L x).1 hx
      exact hC (hall nd hnd hv)
    rw [pollCycle_ok_sent, pollCycle_ok_claims, hempty]
    simp

/-- Witness of C4: the only matching node is already claimed. -/
theorem non_convergence_persists_witness :
    (pollCycle "v1.32.0" (.ok [⟨"n1", "v1.32.0"⟩, ⟨"n2", "v1.31.0"⟩]) ["n1"]).ctl = .nextTick ∧
    (pollCycle "v1.32.0" (.ok [⟨"n1", "v1.32.0"⟩, ⟨"n2", "v1.31.0"⟩]) ["n1"]).oldNode = 1 ∧
    (pollCycle "v1.32.0" (.ok [⟨"n1", "v1.32.0"⟩, ⟨"n2", "v1.31.0"⟩]) ["n1"]).sent = [] :=
  have h := non_convergence_persists "v1.32.0" ["n1"] [⟨"n1", "v1.32.0"⟩, ⟨"n2", "v1.31.0"⟩]
    (by decide) ⟨⟨"n1", "v1.32.0"⟩, by decide, by decide⟩
  ⟨h.1, h.2.1.trans (by decide), (h.2.2.2.2 (by decide)).1⟩

/-- C6 (inventory list failure skips the cycle). When `List` fails, the cycle
sends nothing, leaves the claim set as it was and does not leave the loop; the
loop goes on with the ticks that follow, from the same claim set. -/
theorem list_failure_skips_cycle (v : String) (C : List String) (e : String) :
    pollCycle v (.error e) C =
      { processingNodes := C, sent := [], oldNode := 0, listFailed := true, ctl := .nextTick } ∧
    (∀ rest : List Tick, discoveryLoop v C (⟨[], .error e⟩ :: rest) =
      { processingNodes := (discoveryLoop v C rest).processingNodes,
        trace := [RunEvent.list, RunEvent.errList] ++ (discoveryLoop v C rest).trace,
        closed := (discoveryLoop v C rest).closed }) ∧
    (discoveryLoop v C [⟨[], .error e⟩]).closed = false := by
  refine ⟨rfl, ?_, ?_⟩
  · intro rest
    simp [discoveryLoop, pollCycle, cycleTrace]
  · simp [discoveryLoop, pollCycle]

theorem discoveryLoop_released (v : String) (C rel : List String)
    (listResult : Except String (List Node)) (rest : List Tick) :
    discoveryLoop v C (⟨rel, listResult⟩ :: rest) =
      discoveryLoop v (rel.foldl delete C) (⟨[], listResult⟩ :: rest) := by
  simp [discoveryLoop]

/-! ## The worker -/

theorem workerLoop_trace_filter_get (m : List String) (items : List (String × Outcome)) :
    (workerLoop m items).trace.filter WorkerEvent.isGet
      = items.map (fun it => WorkerEvent.get it.1) := by
  induction items generalizing m with
  | nil => simp [workerLoop]
  | cons it rest ih =>
      obtain ⟨n, o⟩ := it
      simp only [workerLoop, List.filter_append, ih, List.map_cons]
      rcases o with ⟨_ | nd, _ | _, _ | _⟩ <;>
        simp [workerItem, List.filter_cons, WorkerEvent.isGet]

/-- C2 (guaranteed release on every exit path). Whatever the results of Get,
cordon and drain, the processing of one received name deletes that name from
the claim set exactly once and deletes no other name; the delete is the last
thing done for the item, so the name is absent from the claim set, and every
other name is kept, when the worker goes to take its next item. -/
theorem release_on_every_path (m : List String) (nodeName : String) (o : Outcome) :
    (workerItem m nodeName o).trace.filter WorkerEvent.isDelete
      = [WorkerEvent.delete nodeName] ∧
    (workerItem m nodeName o).trace.getLast? = some (WorkerEvent.delete nodeName) ∧
    (workerItem m nodeName o).processingNodes = delete m nodeName ∧
    nodeName ∉ (workerItem m nodeName o).processingNodes ∧
    (∀ x, x ∈ (workerItem m nodeName o).processingNodes ↔ x ∈ m ∧ x ≠ nodeName) := by
  have hp : (workerItem m nodeName o).processingNodes = delete m nodeName := by
    rcases o with ⟨_ | nd, _ | _, _ | _⟩ <;> simp [workerItem]
  refine ⟨?_, ?_, hp, ?_, ?_⟩
  · rcases o with ⟨_ | nd, _ | _, _ | _⟩ <;>
      simp [workerItem, List.filter_cons, WorkerEvent.isDelete]
  · rcases o with ⟨_ | nd, _ | _, _ | _⟩ <;> simp [workerItem]
  · rw [hp]
    exact not_mem_delete_self m nodeName
  · intro x
    rw [hp]
    exact mem_delete_iff m nodeName x

/-- C7 (worker step order and short-circuit). For one received name: cordon
is invoked only if Get succeeded, and then on the node Get returned; drain is
invoked only if Get and cordon both succeeded; each of the two is invoked at
most once; when both are invoked, the cordon call precedes the drain call.
Whatever the results, the worker goes on: over any sequence of received items
it makes one Get call per item, in order. -/
theorem worker_order_and_short_circuit (m : List String) (nodeName : String) (o : Outcome)
    (items : List (String × Outcome)) :
    (∀ nd, WorkerEvent.cordon nd ∈ (workerItem m nodeName o).trace ↔ o.get = some nd) ∧
    (∀ x, WorkerEvent.drain x ∈ (workerItem m nodeName o).trace ↔
      x = nodeName ∧ o.get.isSome = true ∧ o.cordon = true) ∧
    ((workerItem m nodeName o).trace.filter WorkerEvent.isCordon).length ≤ 1 ∧
    ((workerItem m nodeName o).trace.filter WorkerEvent.isDrain).length ≤ 1 ∧
    ((workerItem m nodeName o).trace.filter
        (fun e => WorkerEvent.isCordon e || WorkerEvent.isDrain e)
      = (match o.get with
          | none => []
          | some nd =>
              if o.cordon = false then [WorkerEvent.cordon nd]
              else [WorkerEvent.cordon nd, WorkerEvent.drain nodeName])) ∧
    (workerLoop m ((nodeName, o) :: items)).trace
      = (workerItem m nodeName o).trace
          ++ (workerLoop (workerItem m nodeName o).processingNodes items).trace ∧
    (workerLoop m items).trace.filter WorkerEvent.isGet
      = items.map (fun it => WorkerEvent.get it.1) := by
  refine ⟨?_, ?_, ?_, ?_, ?_, rfl, workerLoop_trace_filter_get m items⟩
  · intro nd
    rcases o with ⟨_ | nd', _ | _, _ | _⟩ <;> simp [workerItem, eq_comm]
  · intro x
    rcases o with ⟨_ | nd', _ | _, _ | _⟩ <;> simp [workerItem]
  · rcases o with ⟨_ | nd', _ | _, _ | _⟩ <;>
      simp [workerItem, List.filter_cons, WorkerEvent.isCordon]
  · rcases o with ⟨_ | nd', _ | _, _ | _⟩ <;>
      simp [workerItem, List.filter_cons, WorkerEvent.isDrain]
  · rcases o with ⟨_ | nd', _ | _, _ | _⟩ <;>
      simp [workerItem, List.filter_cons, WorkerEvent.isCordon, WorkerEvent.isDrain]

/-- C8 (retry after failure, Scenario C). Let `n` be unclaimed and listed at
the target version: the cycle claims `n` and sends it. Whatever the results of
the worker's calls for `n` (a failure at Get, at cordon or at drain included),
after the worker has processed `n` a later successful cycle whose listing has
`n` at the target version claims `n` again and sends `n` again. -/
theorem retry_after_failure (v : String) (C : List String) (L1 L2 : List Node) (n : String)
    (o : Outcome) (hC : n ∉ C)
    (h1 : ∃ nd ∈ L1, nd.kubeletVersion = v ∧ nd.name = n)
    (h2 : ∃ nd ∈ L2, nd.kubeletVersion = v ∧ nd.name = n) :
    n ∈ (pollCycle v (.ok L1) C).sent ∧
    n ∈ (pollCycle v (.ok L1) C).processingNodes ∧
    n ∉ (workerItem (pollCycle v (.ok L1) C).processingNodes n o).processingNodes ∧
    n ∈ (pollCycle v (.ok L2)
          (workerItem (pollCycle v (.ok L1) C).processingNodes n o).processingNodes).sent ∧
    n ∈ (pollCycle v (.ok L2)
          (workerItem (pollCycle v (.ok L1) C).processingNodes n o).processingNodes).processingNodes := by
  have hrel : (workerItem (pollCycle v (.ok L1) C).processingNodes n o).processingNodes
      = delete (pollCycle v (.ok L1) C).processingNodes n := by
    rcases o with ⟨_ | nd, _ | _, _ | _⟩ <;> simp [workerItem]
  have hs1 : n ∈ (pollCycle v (.ok L1) C).sent := by
    rw [pollCycle_ok_sent]
    exact (mem_expectedDispatch v C L1 n).2 ⟨h1, hC⟩
  have hout : n ∉ (workerItem (pollCycle v (.ok L1) C).processingNodes n o).processingNodes := by
    rw [hrel]
    exact not_mem_delete_self _ n
  have hs2 : n ∈ (pollCycle v (.ok L2)
      (workerItem (pollCycle v (.ok L1) C).processingNodes n o).processingNodes).sent := by
    rw [pollCycle_ok_sent]
    exact (mem_expectedDispatch v _ L2 n).2 ⟨h2, hout⟩
  refine ⟨hs1, ?_, hout, hs2, ?_⟩
  · rw [pollCycle_ok_claims]
    rw [pollCycle_ok_sent] at hs1
    exact List.mem_append_right _ hs1
  · rw [pollCycle_ok_claims]
    rw [pollCycle_ok_sent] at hs2
    exact List.mem_append_right _ hs2

/-- Witness of C8, Scenario C: drain fails for `n1`, the claim is released,
the next cycle lists `n1` at the target version and sends it again. -/
theorem retry_after_failure_witness :
    "n1" ∉ ([] : List String) ∧
    (pollCycle "v1.32.0" (.ok [⟨"n1", "v1.32.0"⟩]) []).sent = ["n1"] ∧
    (workerItem ["n1"] "n1" ⟨some ⟨"n1", "v1.32.0"⟩, true, false⟩).processingNodes = [] ∧
    "n1" ∈ (pollCycle "v1.32.0" (.ok [⟨"n1", "v1.32.0"⟩])
      (workerItem (pollCycle "v1.32.0" (.ok [⟨"n1", "v1.32.0"⟩]) []).processingNodes "n1"
        ⟨some ⟨"n1", "v1.32.0"⟩, true, false⟩).processingNodes).sent :=
  ⟨by decide, by decide, by decide,
    (retry_after_failure "v1.32.0" [] [⟨"n1", "v1.32.0"⟩] [⟨"n1", "v1.32.0"⟩] "n1"
      ⟨some ⟨"n1", "v1.32.0"⟩, true, false⟩ (by decide)
      ⟨⟨"n1", "v1.32.0"⟩, by decide, by decide, by decide⟩
      ⟨⟨"n1", "v1.32.0"⟩, by decide, by decide, by decide⟩).2.2.2.1⟩

/-! ## Startup -/

/-- C9 (missing required version). With `--old-k8s-version` empty, `run`
returns the error at once: the main goroutine has made no effect at all (no
client configuration or clientset built, no worker started, no ticker, no
`List` call; `Get` is only ever called by a worker), and `main` exits with
status 1. -/
theorem missing_version_is_startup_error (concurrency checkInterval : Int) (env : Env) :
    run "" concurrency checkInterval env =
      { trace := [], status := .returned (some "--old-k8s-version is required") } ∧
    main "" concurrency checkInterval env = some 1 := by
  constructor <;> simp [main, run, exitStatus]

/-! ## The running system -/

theorem filterMap_holds_set_same {l : List WorkerPc} {w : Nat} {pc pc' : WorkerPc}
    (h : l[w]? = some pc) (he : pc'.holds = pc.holds) :
    (l.set w pc').filterMap WorkerPc.holds = l.filterMap WorkerPc.holds := by
  induction l generalizing w with
  | nil => simp
  | cons a l ih =>
      cases w with
      | zero =>
          have ha : a = pc := by simpa using h
          subst ha
          simp [List.filterMap_cons, he]
      | succ k =>
          have hk : l[k]? = some pc := by simpa using h
          simp [List.filterMap_cons, ih hk]

theorem filterMap_holds_set_take {l : List WorkerPc} {w : Nat} {pc pc' : WorkerPc} {n : String}
    (h : l[w]? = some pc) (hpc : pc.holds = none) (hpc' : pc'.holds = some n) :
    ((l.set w pc').filterMap WorkerPc.holds).Perm (n :: l.filterMap WorkerPc.holds) := by
  induction l generalizing w with
  | nil => simp at h
  | cons a l ih =>
      cases w with
      | zero =>
          have ha : a = pc := by simpa using h
          subst ha
          simp [List.filterMap_cons, hpc, hpc']
      | succ k =>
          have hk : l[k]? = some pc := by simpa using h
          have := ih hk
          cases hh : a.holds with
          | none => simpa [List.filterMap_cons, hh] using this
          | some x =>
              simp only [List.set_cons_succ, List.filterMap_cons, hh]
              exact (List.Perm.cons x this).trans (List.Perm.swap n x _)

theorem filterMap_holds_set_drop {l : List WorkerPc} {w : Nat} {pc pc' : WorkerPc} {n : String}
    (h : l[w]? = some pc) (hpc : pc.holds = some n) (hpc' : pc'.holds = none) :
    (l.filterMap WorkerPc.holds).Perm (n :: (l.set w pc').filterMap WorkerPc.holds) := by
  induction l generalizing w with
  | nil => simp at h
  | cons a l ih =>
      cases w with
      | zero =>
          have ha : a = pc := by simpa using h
          subst ha
          simp [List.filterMap_cons, hpc, hpc']
      | succ k =>
          have hk : l[k]? = some pc := by simpa using h
          have := ih hk
          cases hh : a.holds with
          | none => simpa [List.filterMap_cons, hh] using this
          | some x =>
              simp only [List.set_cons_succ, List.filterMap_cons, hh]
              exact (List.Perm.cons x this).trans (List.Perm.swap n x _)

theorem count_filterMap_holds (l : List WorkerPc) (n : String) :
    (l.filterMap WorkerPc.holds).count n = l.countP (fun pc => pc.holds == some n) := by
  induction l with
  | nil => simp
  | cons a l ih =>
      cases hh : a.holds with
      | none => simp [List.filterMap_cons, hh, List.countP_cons, ih]
      | some x =>
          by_cases hx : x = n
          · simp [List.filterMap_cons, hh, List.countP_cons, ih, hx]
          · simp [List.filterMap_cons, hh, List.countP_cons, ih, hx, List.count_cons]

theorem index_unique_of_nodup_holds {l : List WorkerPc} (hnd : (l.filterMap WorkerPc.holds).Nodup)
    {i j : Nat} {a b : WorkerPc} {n : String} (hi : l[i]? = some a) (hj : l[j]? = some b)
    (ha : a.holds = some n) (hb : b.holds = some n) : i = j := by
  induction l generalizing i j with
  | nil => simp at hi
  | cons c l ih =>
      have hmem : ∀ {k : Nat} {d : WorkerPc}, l[k]? = some d → d.holds = some n →
          n ∈ l.filterMap WorkerPc.holds := by
        intro k d hk hd
        exact List.mem_filterMap.2 ⟨d, List.getElem?_mem hk, hd⟩
      have htail : (l.filterMap WorkerPc.holds).Nodup := by
        cases hh : c.holds with
        | none => simpa [List.filterMap_cons, hh] using hnd
        | some x =>
            have := hnd
            simp only [List.filterMap_cons, hh, List.nodup_cons] at this
            exact this.2
      cases i with
      | zero =>
          cases j with
          | zero => rfl
          | succ j' =>
              exfalso
              have hc : c = a := by simpa using hi
              have hj' : l[j']? = some b := by simpa using hj
              subst hc
              simp only [List.filterMap_cons, ha, List.nodup_cons] at hnd
              exact hnd.1 (hmem hj' hb)
      | succ i' =>
          have hi' : l[i']? = some a := by simpa using hi
          cases j with
          | zero =>
              exfalso
              have hc : c = b := by simpa using hj
              subst hc
              simp only [List.filterMap_cons, hb, List.nodup_cons] at hnd
              exact hnd.1 (hmem hi' ha)
          | succ j' =>
              have hj' : l[j']? = some b := by simpa using hj
              rw [ih htail hi' hj']

theorem inv_start (concurrency : Int) : Inv (start concurrency) := by
  have : (List.replicate concurrency.toNat WorkerPc.idle).filterMap WorkerPc.holds = [] := by
    apply List.eq_nil_iff_forall_not_mem.2
    intro x hx
    obtain ⟨pc, hpc, hh⟩ := List.mem_filterMap.1 hx
    rw [List.eq_of_mem_replicate hpc] at hh
    simp [WorkerPc.holds] at hh
  simp [Inv, start, inFlight, holders, this]

/-- A step that leaves the claim set and the names in flight as they are
keeps the invariant. -/
theorem inv_of_same {s s' : Sys} (hinv : Inv s) (hm : s'.processingNodes = s.processingNodes)
    (hf : inFlight s' = inFlight s) : Inv s' := by
  unfold Inv at *
  rw [hf, hm]
  exact hinv

theorem inv_visit {v : String} {m : List String} {ws : List WorkerPc} {node : Node}
    {rest : List Node} {c : Int} {s' : Sys}
    (hinv : Inv { processingNodes := m, disp := .ranging (node :: rest) c, workers := ws })
    (h : step v { processingNodes := m, disp := .ranging (node :: rest) c, workers := ws } .visit
      = some s') : Inv s' := by
  simp only [step] at h
  by_cases hv : node.kubeletVersion = v
  · by_cases hc : node.name ∈ m
    · rw [visitNode_claimed hv hc] at h
      simp only [Option.some.injEq] at h
      subst h
      exact inv_of_same hinv rfl rfl
    · rw [visitNode_fresh hv hc] at h
      simp only [List.nil_append, Option.some.injEq] at h
      subst h
      obtain ⟨hnd, hsub⟩ := hinv
      simp only [inFlight, holders, List.nil_append] at hnd hsub
      refine ⟨?_, ?_⟩
      · simp only [inFlight, holders, List.singleton_append, List.nodup_cons]
        exact ⟨fun hmem => hc (hsub _ hmem), hnd⟩
      · intro x hx
        simp only [inFlight, holders, List.singleton_append, List.mem_cons] at hx
        rcases hx with rfl | hx
        · simp
        · exact List.mem_append_left _ (hsub x hx)
  · rw [visitNode_skip hv] at h
    simp only [Option.some.injEq] at h
    subst h
    exact inv_of_same hinv rfl rfl

theorem inv_handOff {m : List String} {ws : List WorkerPc} {name : String} {rest : List Node}
    {c : Int} {w : Nat}
    (hinv : Inv { processingNodes := m, disp := .sending name rest c, workers := ws })
    (hw : ws[w]? = some .idle) :
    Inv { processingNodes := m, disp := .ranging rest c,
          workers := ws.set w (.fetching name) } := by
  obtain ⟨hnd, hsub⟩ := hinv
  have hperm : ((ws.set w (WorkerPc.fetching name)).filterMap WorkerPc.holds).Perm
      (name :: ws.filterMap WorkerPc.holds) := filterMap_holds_set_take hw rfl rfl
  simp only [inFlight, holders, List.singleton_append] at hnd hsub
  refine ⟨?_, ?_⟩
  · simp only [inFlight, holders, List.nil_append]
    exact (List.Perm.nodup_iff hperm).2 hnd
  · intro x hx
    simp only [inFlight, holders, List.nil_append] at hx
    exact hsub x (hperm.mem_iff.1 hx)

theorem inFlight_set_same {m : List String} {d : DispPc} {ws : List WorkerPc} {w : Nat}
    {pc pc' : WorkerPc} (hw : ws[w]? = some pc) (he : pc'.holds = pc.holds) :
    inFlight { processingNodes := m, disp := d, workers := ws.set w pc' }
      = inFlight { processingNodes := m, disp := d, workers := ws } := by
  simp only [inFlight, holders, filterMap_holds_set_same hw he]

theorem inv_release {m : List String} {d : DispPc} {ws : List WorkerPc} {name : String} {w : Nat}
    (hinv : Inv { processingNodes := m, disp := d, workers := ws })
    (hw : ws[w]? = some (.releasing name)) :
    Inv { processingNodes := delete m name, disp := d, workers := ws.set w .idle } := by
  obtain ⟨hnd, hsub⟩ := hinv
  have hperm : (ws.filterMap WorkerPc.holds).Perm
      (name :: (ws.set w WorkerPc.idle).filterMap WorkerPc.holds) :=
    filterMap_holds_set_drop hw rfl rfl
  have hperm' : (inFlight { processingNodes := m, disp := d, workers := ws }).Perm
      (name :: inFlight { processingNodes := delete m name, disp := d,
                          workers := ws.set w .idle }) := by
    simp only [inFlight, holders]
    exact (List.Perm.append_left _ hperm).trans List.perm_middle
  have hnd' := (List.Perm.nodup_iff hperm').1 hnd
  rw [List.nodup_cons] at hnd'
  refine ⟨hnd'.2, ?_⟩
  intro x hx
  have hxm : x ∈ m := hsub x (hperm'.mem_iff.2 (List.mem_cons_of_mem _ hx))
  have hne : x ≠ name := fun hxn => hnd'.1 (hxn ▸ hx)
  exact (mem_delete_iff m name x).2 ⟨hxm, hne⟩

/-- Every atomic step keeps the invariant. -/
theorem step_preserves_inv (v : String) (s s' : Sys) (a : Action) (hinv : Inv s)
    (h : step v s a = some s') : Inv s' := by
  obtain ⟨m, d, ws⟩ := s
  cases a with
  | list result =>
      cases d <;> simp only [step, reduceCtorEq] at h
      cases result <;> simp only [Option.some.injEq] at h <;> subst h <;>
        exact inv_of_same hinv rfl rfl
  | visit =>
      cases d with
      | ranging items c =>
          cases items with
          | nil => simp [step] at h
          | cons node rest => exact inv_visit hinv h
      | _ => simp [step] at h
  | endCycle =>
      cases d with
      | ranging items c =>
          cases items with
          | nil =>
              simp only [step] at h
              split at h <;> simp only [Option.some.injEq] at h <;> subst h <;>
                exact inv_of_same hinv rfl rfl
          | cons node rest => simp [step] at h
      | _ => simp [step] at h
  | tick =>
      cases d <;> simp only [step, reduceCtorEq] at h
      simp only [Option.some.injEq] at h
      subst h
      exact inv_of_same hinv rfl rfl
  | handOff w =>
      cases d with
      | sending name rest c =>
          cases hw : ws[w]? with
          | none => simp [step, hw] at h
          | some pc =>
              cases pc <;> simp only [step, hw, reduceCtorEq] at h
              simp only [Option.some.injEq] at h
              subst h
              exact inv_handOff hinv hw
      | _ => simp [step] at h
  | get w result =>
      cases hw : ws[w]? with
      | none => simp [step, hw] at h
      | some pc =>
          cases pc <;> simp only [step, hw, reduceCtorEq] at h
          cases result <;> simp only [Option.some.injEq] at h <;> subst h <;>
            exact inv_of_same hinv rfl (inFlight_set_same hw rfl)
  | cordon w ok =>
      cases hw : ws[w]? with
      | none => simp [step, hw] at h
      | some pc =>
          cases pc <;> simp only [step, hw, reduceCtorEq] at h
          split at h <;> simp only [Option.some.injEq] at h <;> subst h <;>
            exact inv_of_same hinv rfl (inFlight_set_same hw rfl)
  | drain w ok =>
      cases hw : ws[w]? with
      | none => simp [step, hw] at h
      | some pc =>
          cases pc <;> simp only [step, hw, reduceCtorEq] at h
          simp only [Option.some.injEq] at h
          subst h
          exact inv_of_same hinv rfl (inFlight_set_same hw rfl)
  | release w =>
      cases hw : ws[w]? with
      | none => simp [step, hw] at h
      | some pc =>
          cases pc <;> simp only [step, hw, reduceCtorEq] at h
          simp only [Option.some.injEq] at h
          subst h
          exact inv_release hinv hw
  | workerExit w =>
      cases d with
      | closed =>
          cases hw : ws[w]? with
          | none => simp [step, hw] at h
          | some pc =>
              cases pc <;> simp only [step, hw, reduceCtorEq] at h
              simp only [Option.some.injEq] at h
              subst h
              exact inv_of_same hinv rfl (inFlight_set_same hw rfl)
      | _ => simp [step] at h
  | finish =>
      cases d with
      | closed =>
          simp only [step] at h
          split at h
          · simp only [Option.some.injEq] at h
            subst h
            exact inv_of_same hinv rfl rfl
          · simp at h
      | _ => simp [step] at h

/-- Every state reached from a state that satisfies the invariant satisfies
it. -/
theorem exec_preserves_inv (v : String) (acts : List Action) (s s' : Sys) (hinv : Inv s)
    (h : exec v s acts = some s') : Inv s' := by
  induction acts generalizing s with
  | nil =>
      simp only [exec, Option.some.injEq] at h
      subst h
      exact hinv
  | cons a rest ih =>
      simp only [exec] at h
      cases hs : step v s a with
      | none => simp [hs] at h
      | some s1 =>
          rw [hs] at h
          exact ih s1 (step_preserves_inv v s s1 a hinv hs) h

/-- C10 (at most one claim). In every state the system reaches from its start
(the dispatcher and the workers interleaved in any order, the collaborators
answering in any way), for every node name at most one worker is processing
it: the number of workers that hold the name is at most one, two workers that
hold it are the same worker, and the name is in the claim set and is not at
the same time being handed over by the dispatcher. -/
theorem at_most_one_claim (v : String) (concurrency : Int) (acts : List Action) (s : Sys)
    (h : exec v (start concurrency) acts = some s) (n : String) :
    s.workers.countP (fun pc => pc.holds == some n) ≤ 1 ∧
    (∀ (i j : Nat) (a b : WorkerPc), s.workers[i]? = some a → s.workers[j]? = some b →
      a.holds = some n → b.holds = some n → i = j) ∧
    (∀ (i : Nat) (a : WorkerPc), s.workers[i]? = some a → a.holds = some n →
      n ∈ s.processingNodes ∧ ∀ rest c, s.disp ≠ .sending n rest c) := by
  have hinv := exec_preserves_inv v acts _ s (inv_start concurrency) h
  obtain ⟨hnd, hsub⟩ := hinv
  have hnd' : (holders s).Nodup := (List.nodup_append.1 hnd).2.1
  refine ⟨?_, ?_, ?_⟩
  · rw [← count_filterMap_holds]
    exact List.nodup_iff_count_le_one.1 hnd' n
  · intro i j a b hi hj ha hb
    exact index_unique_of_nodup_holds hnd' hi hj ha hb
  · intro i a hi ha
    have hmem : n ∈ holders s := List.mem_filterMap.2 ⟨a, List.getElem?_mem hi, ha⟩
    refine ⟨hsub n (List.mem_append_right _ hmem), ?_⟩
    intro rest c hd
    have hdis := (List.nodup_append.1 hnd).2.2
    simp only [inFlight, hd] at hnd
    rw [List.singleton_append, List.nodup_cons] at hnd
    exact hnd.1 hmem

/-- Witness of C10: two workers, two matching nodes; both names are handed
over, worker 1 holds `a` and worker 0 holds `b`, and each name is held by one
worker. -/
theorem at_most_one_claim_witness :
    exec "v1.32.0" (start 2)
        [.list (.ok [⟨"a", "v1.32.0"⟩, ⟨"b", "v1.32.0"⟩]), .visit, .handOff 1, .visit,
          .handOff 0, .get 0 none] =
      some ⟨["a", "b"], .ranging [] 2, [.releasing "b", .fetching "a"]⟩ ∧
    List.countP (fun pc => pc.holds == some "a")
      [WorkerPc.releasing "b", WorkerPc.fetching "a"] ≤ 1 :=
  ⟨by decide,
    (at_most_one_claim "v1.32.0" 2
      [.list (.ok [⟨"a", "v1.32.0"⟩, ⟨"b", "v1.32.0"⟩]), .visit, .handOff 1, .visit,
        .handOff 0, .get 0 none]
      ⟨["a", "b"], .ranging [] 2, [.releasing "b", .fetching "a"]⟩ (by decide) "a").1⟩

/-! ## The poll cycle as a run of the system

`pollCycle` treats a send on `nodeChan` as done when the dispatcher reaches
it. In the running system the send completes when a worker receives the name.
The two views agree: over any interleaving of the dispatcher's steps with the
workers' collaborator calls in which no claim is released, a cycle that
reaches the end of its listing has claimed, counted and handed over exactly
what `pollCycle` computes. -/

theorem step_worker_call {v : String} {s s1 : Sys} {a : Action}
    (ha : (match a with
      | .get _ _ => true
      | .cordon _ _ => true
      | .drain _ _ => true
      | _ => false) = true)
    (h : step v s a = some s1) :
    s1.processingNodes = s.processingNodes ∧ s1.disp = s.disp ∧ handedOver s a = [] := by
  obtain ⟨m, d, ws⟩ := s
  cases a with
  | get w result =>
      cases hw : ws[w]? with
      | none => simp [step, hw] at h
      | some pc =>
          cases pc <;> simp only [step, hw, reduceCtorEq] at h
          cases result <;> simp only [Option.some.injEq] at h <;> subst h <;>
            simp [handedOver]
  | cordon w ok =>
      cases hw : ws[w]? with
      | none => simp [step, hw] at h
      | some pc =>
          cases pc <;> simp only [step, hw, reduceCtorEq] at h
          split at h <;> simp only [Option.some.injEq] at h <;> subst h <;>
            simp [handedOver]
  | drain w ok =>
      cases hw : ws[w]? with
      | none => simp [step, hw] at h
      | some pc =>
          cases pc <;> simp only [step, hw, reduceCtorEq] at h
          simp only [Option.some.injEq] at h
          subst h
          simp [handedOver]
  | _ => simp at ha

theorem cycle_steps (v : String) (acts : List Action) (m : List String) (d : DispPc)
    (ws : List WorkerPc) (q : List String) (st : CycleState) (m' : List String) (c' : Int)
    (ws' : List WorkerPc) (hd : cycleRest v m q d = some st)
    (hact : ∀ a ∈ acts, a.withinCycle = true)
    (h : exec v ⟨m, d, ws⟩ acts = some ⟨m', .ranging [] c', ws'⟩) :
    st = ⟨m', q ++ received v ⟨m, d, ws⟩ acts, c'⟩ := by
  induction acts generalizing m d ws q st with
  | nil =>
      simp only [exec, Option.some.injEq, Sys.mk.injEq] at h
      obtain ⟨rfl, rfl, rfl⟩ := h
      simp only [cycleRest, List.foldl_nil, Option.some.injEq] at hd
      simp [received, ← hd]
  | cons a rest ih =>
      have ha := hact a (List.mem_cons_self _ _)
      have hrest : ∀ b ∈ rest, b.withinCycle = true :=
        fun b hb => hact b (List.mem_cons_of_mem _ hb)
      simp only [exec] at h
      cases hs : step v ⟨m, d, ws⟩ a with
      | none => simp [hs] at h
      | some s1 =>
          rw [hs] at h
          simp only [received, hs]
          obtain ⟨m1, d1, ws1⟩ := s1
          cases a with
          | visit =>
              cases d with
              | ranging items c =>
                  cases items with
                  | nil => simp [step] at hs
                  | cons node rest' =>
                      simp only [cycleRest, List.foldl_cons, Option.some.injEq] at hd
                      simp only [step] at hs
                      by_cases hv : node.kubeletVersion = v
                      · by_cases hc : node.name ∈ m
                        · rw [visitNode_claimed hv hc] at hs hd
                          simp only [Option.some.injEq, Sys.mk.injEq] at hs
                          obtain ⟨rfl, rfl, rfl⟩ := hs
                          simpa [handedOver] using
                            ih m _ ws q st (by simp [cycleRest, hd]) hrest h
                        · rw [visitNode_fresh hv hc] at hs hd
                          simp only [List.nil_append, Option.some.injEq, Sys.mk.injEq] at hs
                          obtain ⟨rfl, rfl, rfl⟩ := hs
                          simpa [handedOver] using
                            ih _ _ ws q st (by simp [cycleRest, hd]) hrest h
                      · rw [visitNode_skip hv] at hs hd
                        simp only [Option.some.injEq, Sys.mk.injEq] at hs
                        obtain ⟨rfl, rfl, rfl⟩ := hs
                        simpa [handedOver] using
                          ih m _ ws q st (by simp [cycleRest, hd]) hrest h
              | _ => simp [step] at hs
          | handOff w =>
              cases d with
              | sending name rest' c =>
                  cases hw : ws[w]? with
                  | none => simp [step, hw] at hs
                  | some pc =>
                      cases pc <;> simp only [step, hw, reduceCtorEq] at hs
                      simp only [Option.some.injEq, Sys.mk.injEq] at hs
                      obtain ⟨rfl, rfl, rfl⟩ := hs
                      simp only [cycleRest, Option.some.injEq] at hd
                      have := ih m _ _ (q ++ [name]) st (by simp [cycleRest, hd]) hrest h
                      simpa [handedOver, hw] using this
              | _ => simp [step] at hs
          | get w result =>
              obtain ⟨h1, h2, h3⟩ := step_worker_call rfl hs
              simp only at h1 h2
              subst h1 h2
              simpa [h3] using ih _ _ ws1 q st hd hrest h
          | cordon w ok =>
              obtain ⟨h1, h2, h3⟩ := step_worker_call rfl hs
              simp only at h1 h2
              subst h1 h2
              simpa [h3] using ih _ _ ws1 q st hd hrest h
          | drain w ok =>
              obtain ⟨h1, h2, h3⟩ := step_worker_call rfl hs
              simp only at h1 h2
              subst h1 h2
              simpa [h3] using ih _ _ ws1 q st hd hrest h
          | _ => simp [Action.withinCycle] at ha

/-- A cycle of the running system in which no claim is released: from the
start of the range loop over the listing `L` to its end, the claim set, the
counter and the names the workers received are those of `pollCycle`. -/
theorem cycle_refines_pollCycle (v : String) (acts : List Action) (m : List String)
    (L : List Node) (ws : List WorkerPc) (m' : List String) (c' : Int) (ws' : List WorkerPc)
    (hact : ∀ a ∈ acts, a.withinCycle = true)
    (h : exec v ⟨m, .ranging L 0, ws⟩ acts = some ⟨m', .ranging [] c', ws'⟩) :
    m' = (pollCycle v (.ok L) m).processingNodes ∧
    c' = (pollCycle v (.ok L) m).oldNode ∧
    received v ⟨m, .ranging L 0, ws⟩ acts = (pollCycle v (.ok L) m).sent := by
  have := cycle_steps v acts m (.ranging L 0) ws [] _ m' c' ws' rfl hact h
  simp only [List.nil_append] at this
  simp only [pollCycle, this, and_self]

theorem cycle_refines_pollCycle_witness :
    received "v1.32.0" ⟨["x"], .ranging [⟨"a", "v1.32.0"⟩, ⟨"x", "v1.32.0"⟩, ⟨"b", "v1.32.0"⟩] 0,
        [.idle, .idle]⟩
      [.visit, .handOff 1, .get 1 none, .visit, .visit, .handOff 0]
      = (pollCycle "v1.32.0" (.ok [⟨"a", "v1.32.0"⟩, ⟨"x", "v1.32.0"⟩, ⟨"b", "v1.32.0"⟩])
          ["x"]).sent :=
  (cycle_refines_pollCycle "v1.32.0" [.visit, .handOff 1, .get 1 none, .visit, .visit, .handOff 0]
    ["x"] [⟨"a", "v1.32.0"⟩, ⟨"x", "v1.32.0"⟩, ⟨"b", "v1.32.0"⟩] [.idle, .idle]
    ["x", "a", "b"] 3 [.fetching "b", .releasing "a"] (by decide) (by decide)).2.2

/-- The worker closure as a run of the system: the steps of a worker that has
received `n` bring it back to the receive with the claim set `workerItem`
computes, whatever the dispatcher's position. -/
theorem worker_refines_workerItem (v : String) (m : List String) (d : DispPc)
    (ws : List WorkerPc) (w : Nat) (n : String) (o : Outcome)
    (hw : ws[w]? = some (.fetching n)) :
    exec v ⟨m, d, ws⟩ (workerActions w o) =
      some ⟨(workerItem m n o).processingNodes, d, ws.set w .idle⟩ := by
  have hlt : w < ws.length := by
    by_contra hge
    rw [List.getElem?_eq_none (not_lt.1 hge)] at hw
    simp at hw
  have hset : ∀ (l : List WorkerPc) (pc : WorkerPc), w < l.length → (l.set w pc)[w]? = some pc := by
    intro l pc hl
    simp [List.getElem?_set, hl]
  rcases o with ⟨_ | nd, _ | _, _ | _⟩ <;>
    simp [workerActions, workerItem, exec, step, hw, hset, hlt, List.set_set]

/-! ## A cycle in the running system: sends that block

In the running system the send of line 127 waits for a worker. The lemmas
below follow a cycle through any interleaving without a release. -/

theorem idleCount_set_take {ws : List WorkerPc} {w : Nat} {pc' : WorkerPc}
    (h : ws[w]? = some .idle) (hpc' : pc' ≠ .idle) :
    idleCount (ws.set w pc') + 1 = idleCount ws := by
  induction ws generalizing w with
  | nil => simp at h
  | cons a l ih =>
      cases w with
      | zero =>
          have ha : a = .idle := by simpa using h
          subst ha
          simp [idleCount, List.countP_cons, hpc']
      | succ k =>
          have hk : l[k]? = some .idle := by simpa using h
          have := ih hk
          simp only [idleCount] at this
          simp only [idleCount, List.set_cons_succ, List.countP_cons]
          omega

theorem idleCount_set_busy {ws : List WorkerPc} {w : Nat} {pc pc' : WorkerPc}
    (h : ws[w]? = some pc) (hpc : pc ≠ .idle) (hpc' : pc' ≠ .idle) :
    idleCount (ws.set w pc') = idleCount ws := by
  induction ws generalizing w with
  | nil => simp at h
  | cons a l ih =>
      cases w with
      | zero =>
          have ha : a = pc := by simpa using h
          subst ha
          simp [idleCount, List.countP_cons, hpc, hpc']
      | succ k =>
          have hk : l[k]? = some pc := by simpa using h
          have := ih hk
          simp only [idleCount] at this
          simp only [idleCount, List.set_cons_succ, List.countP_cons, this]

theorem step_worker_call_idle {v : String} {s s1 : Sys} {a : Action}
    (ha : (match a with
      | .get _ _ => true
      | .cordon _ _ => true
      | .drain _ _ => true
      | _ => false) = true)
    (h : step v s a = some s1) : idleCount s1.workers = idleCount s.workers := by
  obtain ⟨m, d, ws⟩ := s
  cases a with
  | get w result =>
      cases hw : ws[w]? with
      | none => simp [step, hw] at h
      | some pc =>
          cases pc <;> simp only [step, hw, reduceCtorEq] at h
          cases result <;> simp only [Option.some.injEq] at h <;> subst h <;>
            exact idleCount_set_busy hw (by simp) (by simp)
  | cordon w ok =>
      cases hw : ws[w]? with
      | none => simp [step, hw] at h
      | some pc =>
          cases pc <;> simp only [step, hw, reduceCtorEq] at h
          split at h <;> simp only [Option.some.injEq] at h <;> subst h <;>
            exact idleCount_set_busy hw (by simp) (by simp)
  | drain w ok =>
      cases hw : ws[w]? with
      | none => simp [step, hw] at h
      | some pc =>
          cases pc <;> simp only [step, hw, reduceCtorEq] at h
          simp only [Option.some.injEq] at h
          subst h
          exact idleCount_set_busy hw (by simp) (by simp)
  | _ => simp at ha

/-- One step inside a cycle without a release keeps three things: what the
range loop will have done at its end, the claim set as the starting claim set
plus the names received plus the pending name, and the number of waiting
workers plus the number of names received. -/
theorem within_step {v : String} {s s1 : Sys} {a : Action} {q C : List String}
    {st : CycleState} (ha : a.withinCycle = true) (hs : step v s a = some s1)
    (hd : cycleRest v s.processingNodes q s.disp = some st)
    (hJ : s.processingNodes = C ++ q ++ pendingName s.disp) :
    cycleRest v s1.processingNodes (q ++ handedOver s a) s1.disp = some st ∧
    s1.processingNodes = C ++ (q ++ handedOver s a) ++ pendingName s1.disp ∧
    idleCount s1.workers + (handedOver s a).length = idleCount s.workers := by
  obtain ⟨m, d, ws⟩ := s
  obtain ⟨m1, d1, ws1⟩ := s1
  simp only at hd hJ
  cases a with
  | visit =>
      cases d with
      | ranging items c =>
          cases items with
          | nil => simp [step] at hs
          | cons node rest' =>
              simp only [cycleRest, List.foldl_cons, Option.some.injEq] at hd
              simp only [pendingName, List.append_nil] at hJ
              simp only [step] at hs
              by_cases hv : node.kubeletVersion = v
              · by_cases hc : node.name ∈ m
                · rw [visitNode_claimed hv hc] at hs hd
                  simp only [Option.some.injEq, Sys.mk.injEq] at hs
                  obtain ⟨rfl, rfl, rfl⟩ := hs
                  refine ⟨?_, ?_, ?_⟩
                  · simpa [handedOver, cycleRest] using hd
                  · simpa [handedOver, pendingName] using hJ
                  · simp [handedOver]
                · rw [visitNode_fresh hv hc] at hs hd
                  simp only [List.nil_append, Option.some.injEq, Sys.mk.injEq] at hs
                  obtain ⟨rfl, rfl, rfl⟩ := hs
                  refine ⟨?_, ?_, ?_⟩
                  · simpa [handedOver, cycleRest] using hd
                  · simp [handedOver, pendingName, hJ]
                  · simp [handedOver]
              · rw [visitNode_skip hv] at hs hd
                simp only [Option.some.injEq, Sys.mk.injEq] at hs
                obtain ⟨rfl, rfl, rfl⟩ := hs
                refine ⟨?_, ?_, ?_⟩
                · simpa [handedOver, cycleRest] using hd
                · simpa [handedOver, pendingName] using hJ
                · simp [handedOver]
      | _ => simp [step] at hs
  | handOff w =>
      cases d with
      | sending name rest' c =>
          cases hw : ws[w]? with
          | none => simp [step, hw] at hs
          | some pc =>
              cases pc <;> simp only [step, hw, reduceCtorEq] at hs
              simp only [Option.some.injEq, Sys.mk.injEq] at hs
              obtain ⟨rfl, rfl, rfl⟩ := hs
              simp only [cycleRest, Option.some.injEq] at hd
              simp only [pendingName] at hJ
              have hidle : idleCount (ws.set w (WorkerPc.fetching name)) + 1 = idleCount ws :=
                idleCount_set_take hw (by simp)
              refine ⟨?_, ?_, ?_⟩
              · simpa [handedOver, hw, cycleRest] using hd
              · simpa [handedOver, hw, pendingName] using hJ
              · simpa [handedOver, hw] using hidle
      | _ => simp [step] at hs
  | get w result =>
      obtain ⟨h1, h2, h3⟩ := step_worker_call rfl hs
      have h4 := step_worker_call_idle rfl hs
      simp only at h1 h2 h4
      subst h1 h2
      rw [h3]
      refine ⟨?_, ?_, ?_⟩
      · simpa using hd
      · simpa using hJ
      · simpa using h4
  | cordon w ok =>
      obtain ⟨h1, h2, h3⟩ := step_worker_call rfl hs
      have h4 := step_worker_call_idle rfl hs
      simp only at h1 h2 h4
      subst h1 h2
      rw [h3]
      refine ⟨?_, ?_, ?_⟩
      · simpa using hd
      · simpa using hJ
      · simpa using h4
  | drain w ok =>
      obtain ⟨h1, h2, h3⟩ := step_worker_call rfl hs
      have h4 := step_worker_call_idle rfl hs
      simp only at h1 h2 h4
      subst h1 h2
      rw [h3]
      refine ⟨?_, ?_, ?_⟩
      · simpa using hd
      · simpa using hJ
      · simpa using h4
  | _ => simp [Action.withinCycle] at ha

/-- The same over a whole interleaving without a release. -/
theorem within_exec (v : String) (acts : List Action) (s s' : Sys) (q C : List String)
    (st : CycleState) (hact : ∀ a ∈ acts, a.withinCycle = true)
    (h : exec v s acts = some s')
    (hd : cycleRest v s.processingNodes q s.disp = some st)
    (hJ : s.processingNodes = C ++ q ++ pendingName s.disp) :
    cycleRest v s'.processingNodes (q ++ received v s acts) s'.disp = some st ∧
    s'.processingNodes = C ++ (q ++ received v s acts) ++ pendingName s'.disp ∧
    idleCount s'.workers + (received v s acts).length = idleCount s.workers := by
  induction acts generalizing s q with
  | nil =>
      simp only [exec, Option.some.injEq] at h
      subst h
      refine ⟨?_, ?_, ?_⟩
      · simpa [received] using hd
      · simpa [received] using hJ
      · simp [received]
  | cons a rest ih =>
      have ha := hact a (List.mem_cons_self _ _)
      have hrest : ∀ b ∈ rest, b.withinCycle = true :=
        fun b hb => hact b (List.mem_cons_of_mem _ hb)
      simp only [exec] at h
      cases hs : step v s a with
      | none => simp [hs] at h
      | some s1 =>
          rw [hs] at h
          obtain ⟨k1, k2, k3⟩ := within_step ha hs hd hJ
          obtain ⟨r1, r2, r3⟩ := ih s1 (q ++ handedOver s a) hrest h k1 k2
          simp only [received, hs, List.length_append]
          refine ⟨?_, ?_, ?_⟩
          · simpa [List.append_assoc] using r1
          · simpa [List.append_assoc] using r2
          · omega

theorem firstIdle_spec {ws : List WorkerPc} {w : Nat} (h : firstIdle ws = some w) :
    ws[w]? = some .idle := by
  induction ws generalizing w with
  | nil => simp [firstIdle] at h
  | cons a l ih =>
      simp only [firstIdle] at h
      by_cases ha : a = .idle
      · simp only [ha, if_true, Option.some.injEq] at h
        subst h
        simp [ha]
      · simp only [ha, if_false, Option.map_eq_some'] at h
        obtain ⟨k, hk, rfl⟩ := h
        simpa using ih hk

theorem firstIdle_of_pos {ws : List WorkerPc} (h : 0 < idleCount ws) :
    ∃ w, firstIdle ws = some w := by
  induction ws with
  | nil => simp [idleCount] at h
  | cons a l ih =>
      by_cases ha : a = .idle
      · exact ⟨0, by simp [firstIdle, ha]⟩
      · have hl : 0 < idleCount l := by
          simpa [idleCount, List.countP_cons, ha] using h
        obtain ⟨k, hk⟩ := ih hl
        exact ⟨k + 1, by simp [firstIdle, ha, hk]⟩

theorem cycleSchedule_within (v : String) (L : List Node) (m : List String)
    (ws : List WorkerPc) : ∀ a ∈ cycleSchedule v m ws L, a.withinCycle = true := by
  induction L generalizing m ws with
  | nil => simp [cycleSchedule]
  | cons node rest ih =>
      intro a ha
      simp only [cycleSchedule] at ha
      split at ha
      · rcases List.mem_cons.1 ha with rfl | ha
        · rfl
        · exact ih m ws a ha
      · split at ha
        · rcases List.mem_cons.1 ha with rfl | ha
          · rfl
          · exact ih m ws a ha
        · split at ha
          · rcases List.mem_cons.1 ha with rfl | ha
            · rfl
            · simp at ha
          · rcases List.mem_cons.1 ha with rfl | ha
            · rfl
            · rcases List.mem_cons.1 ha with rfl | ha
              · rfl
              · exact ih _ _ a ha

/-- With at least as many workers waiting as there are names to dispatch, the
schedule takes the range loop to the end of the listing. -/
theorem cycleSchedule_complete (v : String) (L : List Node) (m : List String)
    (ws : List WorkerPc) (c : Int)
    (hidle : (expectedDispatch v m L).length ≤ idleCount ws) :
    ∃ c' ws', exec v ⟨m, .ranging L c, ws⟩ (cycleSchedule v m ws L)
      = some ⟨m ++ expectedDispatch v m L, .ranging [] c', ws'⟩ := by
  induction L generalizing m ws c with
  | nil => exact ⟨c, ws, by simp [cycleSchedule, exec, expectedDispatch, firstOccurrences]⟩
  | cons node rest ih =>
      by_cases hv : node.kubeletVersion = v
      · by_cases hc : node.name ∈ m
        · rw [expectedDispatch_claimed hc] at hidle ⊢
          obtain ⟨c', ws', h⟩ := ih m ws (wrapInt64 (c + 1)) hidle
          refine ⟨c', ws', ?_⟩
          have hstep : step v ⟨m, .ranging (node :: rest) c, ws⟩ .visit
              = some ⟨m, .ranging rest (wrapInt64 (c + 1)), ws⟩ := by
            simp only [step]
            rw [visitNode_claimed hv hc]
          simp only [cycleSchedule, hv, bne_self_eq_false, Bool.false_eq_true, if_false, hc,
            if_true, exec, hstep]
          exact h
        · rw [expectedDispatch_fresh hv hc] at hidle ⊢
          have hpos : 0 < idleCount ws := by
            simp only [List.length_cons] at hidle
            omega
          obtain ⟨w, hw⟩ := firstIdle_of_pos hpos
          have hwi := firstIdle_spec hw
          have htake : idleCount (ws.set w (WorkerPc.fetching node.name)) + 1 = idleCount ws :=
            idleCount_set_take hwi (by simp)
          obtain ⟨c', ws', h⟩ := ih (m ++ [node.name]) (ws.set w (.fetching node.name))
            (wrapInt64 (c + 1)) (by simp only [List.length_cons] at hidle; omega)
          refine ⟨c', ws', ?_⟩
          have hstep : step v ⟨m, .ranging (node :: rest) c, ws⟩ .visit
              = some ⟨m ++ [node.name], .sending node.name rest (wrapInt64 (c + 1)), ws⟩ := by
            simp only [step]
            rw [visitNode_fresh hv hc]
            simp
          have hstep2 : step v ⟨m ++ [node.name], .sending node.name rest (wrapInt64 (c + 1)), ws⟩
              (.handOff w)
              = some ⟨m ++ [node.name], .ranging rest (wrapInt64 (c + 1)),
                  ws.set w (.fetching node.name)⟩ := by
            simp [step, hwi]
          simp only [cycleSchedule, hv, bne_self_eq_false, Bool.false_eq_true, if_false, hc, hw,
            exec, hstep, hstep2]
          simpa [List.append_assoc] using h
      · rw [expectedDispatch_skip hv] at hidle ⊢
        obtain ⟨c', ws', h⟩ := ih m ws c hidle
        refine ⟨c', ws', ?_⟩
        have hstep : step v ⟨m, .ranging (node :: rest) c, ws⟩ .visit
            = some ⟨m, .ranging rest c, ws⟩ := by
          simp only [step]
          rw [visitNode_skip hv]
        have hne : (node.kubeletVersion != v) = true := by simp [hv]
        simp only [cycleSchedule, hne, if_true, exec, hstep]
        exact h

/-- The facts about a cycle in the running system, from its start: in any
interleaving without a release the names received are an initial part of the
expected dispatch, no more than the workers that were waiting, and the claim
set is the starting claim set plus the names received plus the pending name;
at the end of the listing everything expected has been received. -/
theorem cycle_run_facts (v : String) (C : List String) (L : List Node) (ws : List WorkerPc)
    (acts : List Action) (s' : Sys) (hact : ∀ a ∈ acts, a.withinCycle = true)
    (h : exec v ⟨C, .ranging L 0, ws⟩ acts = some s') :
    received v ⟨C, .ranging L 0, ws⟩ acts <+: expectedDispatch v C L ∧
    (received v ⟨C, .ranging L 0, ws⟩ acts).length ≤ idleCount ws ∧
    s'.processingNodes = C ++ received v ⟨C, .ranging L 0, ws⟩ acts ++ pendingName s'.disp ∧
    (∀ c', s'.disp = .ranging [] c' →
      received v ⟨C, .ranging L 0, ws⟩ acts = expectedDispatch v C L) := by
  obtain ⟨r1, r2, r3⟩ := within_exec v acts ⟨C, .ranging L 0, ws⟩ s' [] C
    (L.foldl (visitNode v) ⟨C, [], 0⟩) hact h rfl (by simp [pendingName])
  simp only [List.nil_append] at r1 r2 r3
  have hE := (foldl_visitNode v L ⟨C, [], 0⟩).1
  simp only [List.nil_append] at hE
  refine ⟨?_, ?_, r2, ?_⟩
  · obtain ⟨m', d', ws'⟩ := s'
    cases d' with
    | ranging rest c =>
        simp only [cycleRest, Option.some.injEq] at r1
        have := (foldl_visitNode v rest ⟨m', received v ⟨C, .ranging L 0, ws⟩ acts, c⟩).1
        rw [r1, hE] at this
        exact ⟨_, this.symm⟩
    | sending name rest c =>
        simp only [cycleRest, Option.some.injEq] at r1
        have := (foldl_visitNode v rest
          ⟨m', received v ⟨C, .ranging L 0, ws⟩ acts ++ [name], c⟩).1
        rw [r1, hE] at this
        exact ⟨[name] ++ expectedDispatch v m' rest, by simpa [List.append_assoc] using this.symm⟩
    | _ => simp [cycleRest] at r1
  · have hr3 : idleCount s'.workers
        + (received v ⟨C, .ranging L 0, ws⟩ acts).length = idleCount ws := r3
    omega
  · intro c' hd
    rw [hd] at r1
    simp only [cycleRest, List.foldl_nil, Option.some.injEq] at r1
    rw [← r1] at hE
    exact hE

/-- C5, amended (exact dispatch of a cycle whose sends are received). Let `E`
be the names of the nodes of the listing `L` whose version is exactly the
target string and whose name is not in the claim set `C`, in listing order
with later repeats dropped. A cycle starts where `List` has returned `L`: the
dispatcher at the head of the range loop with `oldNode` 0, the workers in any
positions `ws`. In a cycle of the running system during which no claim is
released, whatever the interleaving: the names the workers have
received from `nodeChan` are an initial part of `E`, no more than the workers
that were waiting when the cycle began, and the claim set holds the names of
`C`, the names received and the one name whose send is pending, and no other
(so no node with a different version is claimed). When the range loop reaches
the end of the listing, the names received are exactly `E` and the claim set
holds the names of `C` and of `E` and no other. The loop does reach the end
when at least as many workers are waiting as `E` has names, and it cannot when
fewer are waiting. Scenario A: of three nodes, two at `v1.31.0` and one at the
target `v1.32.0`, with one waiting worker exactly the one is claimed and
received. -/
theorem dispatch_of_received_cycle (v : String) (C : List String) (L : List Node)
    (ws : List WorkerPc) :
    (∀ (acts : List Action) (s' : Sys), (∀ a ∈ acts, a.withinCycle = true) →
      exec v ⟨C, .ranging L 0, ws⟩ acts = some s' →
        received v ⟨C, .ranging L 0, ws⟩ acts <+: expectedDispatch v C L ∧
        (received v ⟨C, .ranging L 0, ws⟩ acts).length ≤ idleCount ws ∧
        (∀ x, x ∈ s'.processingNodes ↔
          x ∈ C ∨ x ∈ received v ⟨C, .ranging L 0, ws⟩ acts ∨ x ∈ pendingName s'.disp) ∧
        (∀ c', s'.disp = .ranging [] c' →
          received v ⟨C, .ranging L 0, ws⟩ acts = expectedDispatch v C L ∧
          (∀ x, x ∈ s'.processingNodes ↔ x ∈ C ∨ x ∈ expectedDispatch v C L))) ∧
    ((expectedDispatch v C L).length ≤ idleCount ws →
      ∃ c' ws',
        exec v ⟨C, .ranging L 0, ws⟩ (cycleSchedule v C ws L)
          = some ⟨C ++ expectedDispatch v C L, .ranging [] c', ws'⟩ ∧
        (∀ a ∈ cycleSchedule v C ws L, a.withinCycle = true) ∧
        received v ⟨C, .ranging L 0, ws⟩ (cycleSchedule v C ws L) = expectedDispatch v C L) ∧
    (idleCount ws < (expectedDispatch v C L).length →
      ¬ ∃ (acts : List Action) (m' : List String) (c' : Int) (ws' : List WorkerPc),
        (∀ a ∈ acts, a.withinCycle = true) ∧
        exec v ⟨C, .ranging L 0, ws⟩ acts = some ⟨m', .ranging [] c', ws'⟩) ∧
    (∀ x, x ∈ expectedDispatch v C L ↔
      (∃ nd ∈ L, nd.kubeletVersion = v ∧ nd.name = x) ∧ x ∉ C) ∧
    exec "v1.32.0"
        ⟨[], .ranging [⟨"n1", "v1.31.0"⟩, ⟨"n2", "v1.31.0"⟩, ⟨"n3", "v1.32.0"⟩] 0, [.idle]⟩
        [.visit, .visit, .visit, .handOff 0]
      = some ⟨["n3"], .ranging [] 1, [.fetching "n3"]⟩ ∧
    received "v1.32.0"
        ⟨[], .ranging [⟨"n1", "v1.31.0"⟩, ⟨"n2", "v1.31.0"⟩, ⟨"n3", "v1.32.0"⟩] 0, [.idle]⟩
        [.visit, .visit, .visit, .handOff 0]
      = ["n3"] := by
  refine ⟨?_, ?_, ?_, mem_expectedDispatch v C L, by decide, by decide⟩
  · intro acts s' hact h
    obtain ⟨h1, h2, h3, h4⟩ := cycle_run_facts v C L ws acts s' hact h
    refine ⟨h1, h2, ?_, ?_⟩
    · intro x
      rw [h3]
      simp [or_assoc]
    · intro c' hd
      have hrec := h4 c' hd
      refine ⟨hrec, ?_⟩
      intro x
      rw [h3, hd, hrec]
      simp [pendingName]
  · intro hidle
    obtain ⟨c', ws', h⟩ := cycleSchedule_complete v L C ws 0 hidle
    have hw := cycleSchedule_within v L C ws
    refine ⟨c', ws', h, hw, ?_⟩
    exact (cycle_run_facts v C L ws _ _ hw h).2.2.2 c' rfl
  · rintro hlt ⟨acts, m', c', ws', hact, h⟩
    obtain ⟨_, h2, _, h4⟩ := cycle_run_facts v C L ws acts _ hact h
    rw [h4 c' rfl] at h2
    omega

/-- Witness of C5, amended: Scenario A run to the end of its listing. -/
theorem dispatch_of_received_cycle_witness :
    received "v1.32.0"
        ⟨[], .ranging [⟨"n1", "v1.31.0"⟩, ⟨"n2", "v1.31.0"⟩, ⟨"n3", "v1.32.0"⟩] 0, [.idle]⟩
        [.visit, .visit, .visit, .handOff 0]
      = expectedDispatch "v1.32.0" []
          [⟨"n1", "v1.31.0"⟩, ⟨"n2", "v1.31.0"⟩, ⟨"n3", "v1.32.0"⟩] ∧
    expectedDispatch "v1.32.0" []
        [⟨"n1", "v1.31.0"⟩, ⟨"n2", "v1.31.0"⟩, ⟨"n3", "v1.32.0"⟩] = ["n3"] :=
  ⟨(((dispatch_of_received_cycle "v1.32.0" []
        [⟨"n1", "v1.31.0"⟩, ⟨"n2", "v1.31.0"⟩, ⟨"n3", "v1.32.0"⟩] [.idle]).1
      [.visit, .visit, .visit, .handOff 0] ⟨["n3"], .ranging [] 1, [.fetching "n3"]⟩
      (by decide) (by decide)).2.2.2 1 rfl).1,
    by decide⟩

set_option maxRecDepth 8000

/-- Counterexample to C5 as stated: five unclaimed nodes at the target
version, three waiting workers, no release. The claim gives the five names as
sent and claimed. The code sends `a`, `b`, `c`, stores `d` and blocks in the
send of `d` (line 127): no worker is waiting, the dispatcher has no step left,
`e` is never visited, the names received are `a`, `b`, `c` and the claim set
is `a`, `b`, `c`, `d`. No interleaving without a release receives the five
names or reaches the end of the listing. -/
theorem dispatch_blocks_without_idle_worker :
    expectedDispatch "v1.32.0" []
        [⟨"a", "v1.32.0"⟩, ⟨"b", "v1.32.0"⟩, ⟨"c", "v1.32.0"⟩, ⟨"d", "v1.32.0"⟩,
          ⟨"e", "v1.32.0"⟩]
      = ["a", "b", "c", "d", "e"] ∧
    exec "v1.32.0"
        ⟨[], .ranging [⟨"a", "v1.32.0"⟩, ⟨"b", "v1.32.0"⟩, ⟨"c", "v1.32.0"⟩, ⟨"d", "v1.32.0"⟩,
          ⟨"e", "v1.32.0"⟩] 0, [.idle, .idle, .idle]⟩
        [.visit, .handOff 0, .visit, .handOff 1, .visit, .handOff 2, .visit]
      = some ⟨["a", "b", "c", "d"], .sending "d" [⟨"e", "v1.32.0"⟩] 4,
          [.fetching "a", .fetching "b", .fetching "c"]⟩ ∧
    received "v1.32.0"
        ⟨[], .ranging [⟨"a", "v1.32.0"⟩, ⟨"b", "v1.32.0"⟩, ⟨"c", "v1.32.0"⟩, ⟨"d", "v1.32.0"⟩,
          ⟨"e", "v1.32.0"⟩] 0, [.idle, .idle, .idle]⟩
        [.visit, .handOff 0, .visit, .handOff 1, .visit, .handOff 2, .visit]
      = ["a", "b", "c"] ∧
    step "v1.32.0"
        ⟨["a", "b", "c", "d"], .sending "d" [⟨"e", "v1.32.0"⟩] 4,
          [.fetching "a", .fetching "b", .fetching "c"]⟩ .visit = none ∧
    (∀ w, step "v1.32.0"
        ⟨["a", "b", "c", "d"], .sending "d" [⟨"e", "v1.32.0"⟩] 4,
          [.fetching "a", .fetching "b", .fetching "c"]⟩ (.handOff w) = none) ∧
    (¬ ∃ (acts : List Action) (s' : Sys), (∀ a ∈ acts, a.withinCycle = true) ∧
        exec "v1.32.0"
          ⟨[], .ranging [⟨"a", "v1.32.0"⟩, ⟨"b", "v1.32.0"⟩, ⟨"c", "v1.32.0"⟩,
            ⟨"d", "v1.32.0"⟩, ⟨"e", "v1.32.0"⟩] 0, [.idle, .idle, .idle]⟩ acts = some s' ∧
        (received "v1.32.0"
            ⟨[], .ranging [⟨"a", "v1.32.0"⟩, ⟨"b", "v1.32.0"⟩, ⟨"c", "v1.32.0"⟩,
              ⟨"d", "v1.32.0"⟩, ⟨"e", "v1.32.0"⟩] 0, [.idle, .idle, .idle]⟩ acts
          = ["a", "b", "c", "d", "e"] ∨
         ∃ c', s'.disp = .ranging [] c')) := by
  have hE : expectedDispatch "v1.32.0" []
      [⟨"a", "v1.32.0"⟩, ⟨"b", "v1.32.0"⟩, ⟨"c", "v1.32.0"⟩, ⟨"d", "v1.32.0"⟩,
        ⟨"e", "v1.32.0"⟩] = ["a", "b", "c", "d", "e"] := by decide
  refine ⟨hE, by decide, by decide, by decide, ?_, ?_⟩
  · intro w
    rcases w with _ | _ | _ | w <;> simp [step]
  · rintro ⟨acts, s', hact, h, hor⟩
    obtain ⟨_, h2, _, h4⟩ := cycle_run_facts _ _ _ _ acts s' hact h
    have h3 : idleCount [WorkerPc.idle, WorkerPc.idle, WorkerPc.idle] = 3 := by decide
    rw [h3] at h2
    rcases hor with hrec | ⟨c', hd⟩
    · rw [hrec] at h2
      simp at h2
    · rw [h4 c' hd, hE] at h2
      simp at h2

/-! ## Concrete runs -/

/-- A whole run: the first listing already has no matching node, `run` makes
one `List` call, closes the channel and returns nil, `main` exits with 0. -/
theorem main_converged_at_once :
    main "v1.32.0" 3 10 ⟨.ok (), .ok (), [⟨[], .ok [⟨"n1", "v1.33.0"⟩]⟩], true⟩ = some 0 := by
  decide

/-- Scenario A as a whole run of the discovery loop: the first cycle sends the
one matching node, the second cycle (the node is gone from the listing) ends
the loop. -/
theorem scenario_A_loop :
    discoveryLoop "v1.32.0" []
        [⟨[], .ok [⟨"n1", "v1.31.0"⟩, ⟨"n2", "v1.31.0"⟩, ⟨"n3", "v1.32.0"⟩]⟩,
         ⟨["n3"], .ok [⟨"n1", "v1.31.0"⟩, ⟨"n2", "v1.31.0"⟩]⟩] =
      { processingNodes := [],
        trace := [RunEvent.list, RunEvent.send "n3", RunEvent.list],
        closed := true } := by
  decide

end ParallelDrain
